import Mathlib

/-!
Verification of the time-tracker core (task-tree time accounting, calendar
boundary arithmetic, and report binning/breakdown).

Modelling conventions, shared by all definitions below:

* A Python `datetime` is modelled as an `Int`: the number of whole seconds
  since the local-time epoch 2001-01-01 00:00:00 (a Monday).  All datetimes
  in the program are local ("no time-zone conversion beyond local system
  time"), so `astimezone()` is the identity in the model, and the spec's
  "no precision below whole seconds" justifies the one-second granularity.
  With this epoch, calendar-date number `ts / 86400` (floor division, which
  is what `/` on `Int` computes for positive divisors, matching Python `//`)
  and `weekday = dayNumber % 7` (Monday = 0) agree with Python.
* Python integer floor division / modulo by positive constants are `Int`'s
  `/` and `%` (Euclidean = floor for positive divisors).
* `while` loops are modelled by fuel-indexed structural recursion; the fuel
  supplied by the callers is proved sufficient, so the fuel never runs out
  on the arguments the program uses.
* Python `dict`s are insertion-ordered association lists; assignment
  `d[k] = v` updates the existing slot in place or appends a new one.
* Exceptions are modelled with `Option` (`none` = the call raised).
-/

namespace TT

/-- `util.DAY_CUTOFF_HOUR`: the "day" boundary is at 06:00 local time. -/
def DAY_CUTOFF_HOUR : Int := 6

/-- `util.day_start`: start-of-day instant for `ts`, where a day begins at
06:00 local.  `local.replace(hour=6, minute=0, second=0, microsecond=0)` is
`(ts / 86400) * 86400 + 6*3600`, and `local.hour` is `(ts % 86400) / 3600`. -/
def day_start (ts : Int) : Int :=
  let base := (ts / 86400) * 86400 + DAY_CUTOFF_HOUR * 3600
  if (ts % 86400) / 3600 < DAY_CUTOFF_HOUR then base - 86400 else base

/-- `util.day_end`: `day_start(ts) + timedelta(days=1)`. -/
def day_end (ts : Int) : Int := day_start ts + 86400

/-- Python `date.weekday()` for calendar-day number `dn` (Monday = 0);
epoch day 0 (2001-01-01) is a Monday. -/
def weekday (dn : Int) : Int := dn % 7

/-- `util.week_range`: Monday-anchored 7-day window at the 06:00 boundary,
`monday = day_start(ts) - timedelta(days=day_start(ts).weekday())`. -/
def week_range (ts : Int) : Int × Int :=
  let s := day_start ts
  let monday := s - 86400 * weekday (s / 86400)
  (monday, monday + 7 * 86400)

/-! ### Calendar model

`datetime.date` arithmetic (`.year`/`.month`/`.day`, `.replace(day=1)`,
`.replace(month=..)`) is modelled by the proleptic Gregorian calendar over
day numbers, with day 0 = 2001-01-01.  `ymdToDay` converts a civil date to
a day number and `dayToYmd` is its inverse (computed by fuel-indexed year
and month scans; the fuel is always sufficient, see the spec lemmas). -/

/-- Gregorian leap-year rule (as Python's `datetime`/`calendar` use). -/
def isLeap (y : Int) : Bool := y % 4 == 0 && (y % 100 != 0 || y % 400 == 0)

/-- Length of month `m` (1-12) in a year with leap flag `leap`. -/
def daysInMonth (leap : Bool) (m : Nat) : Nat :=
  if m = 2 then (if leap then 29 else 28)
  else if m = 4 ∨ m = 6 ∨ m = 9 ∨ m = 11 then 30
  else 31

/-- Length of year `y` in days. -/
def daysInYear (y : Int) : Nat := if isLeap y then 366 else 365

/-- Number of days of year strictly before month `m` (so `monthPrefix leap 1 = 0`). -/
def monthPrefix (leap : Bool) : Nat → Nat
  | 0 => 0
  | m + 1 => if m = 0 then 0 else monthPrefix leap m + daysInMonth leap m

/-- Total number of days of the `n` consecutive years `y, y+1, ..., y+n-1`. -/
def yearSpanUp (y : Int) : Nat → Nat
  | 0 => 0
  | n + 1 => daysInYear y + yearSpanUp (y + 1) n

/-- Total number of days of the `n` consecutive years `y-n, ..., y-1`. -/
def yearSpanDown (y : Int) : Nat → Nat
  | 0 => 0
  | n + 1 => daysInYear (y - 1) + yearSpanDown (y - 1) n

/-- Day number of 1 January of year `y` (day 0 = 2001-01-01). -/
def yearStartDay (y : Int) : Int :=
  if 2001 ≤ y then (yearSpanUp 2001 (y - 2001).toNat : Int)
  else -(yearSpanDown 2001 (2001 - y).toNat : Int)

/-- Day number of the civil date `y-m-d`. -/
def ymdToDay (y : Int) (m d : Nat) : Int :=
  yearStartDay y + (monthPrefix (isLeap y) m : Int) + (d : Int) - 1

/-- Locate the year containing the day `doy` days after 1 January of year
`y` (`doy ≥ 0`), returning the year and the remaining day-of-year.
Fuel-indexed structural recursion; fuel `≥ doy` suffices. -/
def findYearUp : Nat → Int → Nat → Int × Nat
  | 0, y, doy => (y, doy)
  | fuel + 1, y, doy =>
      if doy < daysInYear y then (y, doy)
      else findYearUp fuel (y + 1) (doy - daysInYear y)

/-- Locate the year containing the day `q` days before 1 January of year
`y` (`q ≥ 1`), returning the year and the day-of-year.  Fuel `≥ q` suffices. -/
def findYearDown : Nat → Int → Nat → Int × Nat
  | 0, y, _ => (y, 0)
  | fuel + 1, y, q =>
      if q ≤ daysInYear (y - 1) then (y - 1, daysInYear (y - 1) - q)
      else findYearDown fuel (y - 1) (q - daysInYear (y - 1))

/-- Locate the month containing day-of-year `doy` (0-based), scanning from
month `m`; returns the 1-based month and day.  Called with fuel 11 from
month 1, so month 12 is reached exactly when the fuel runs out. -/
def findMonth (leap : Bool) : Nat → Nat → Nat → Nat × Nat
  | 0, m, doy => (m, doy + 1)
  | fuel + 1, m, doy =>
      if doy < daysInMonth leap m then (m, doy + 1)
      else findMonth leap fuel (m + 1) (doy - daysInMonth leap m)

/-- Civil date `(year, month, day)` of day number `dn`: the model of reading
`.year`/`.month`/`.day` of a Python `date`. -/
def dayToYmd (dn : Int) : Int × Nat × Nat :=
  let yd := if 0 ≤ dn then findYearUp dn.toNat 2001 dn.toNat
            else findYearDown (-dn).toNat 2001 (-dn).toNat
  let md := findMonth (isLeap yd.1) 11 1 yd.2
  (yd.1, md.1, md.2)

/-- `util.month_range`: calendar-month window anchored at 06:00 on the 1st.
`start = day_start(ts)` always has hour 6, so `first_day = start.replace(day=1)`
keeps the 06:00 time and the `if first_day.hour != 6` branch in the source is
dead; `next_month` is `replace(month=month+1)` with December→January rollover. -/
def month_range (ts : Int) : Int × Int :=
  let s := day_start ts
  let ymd := dayToYmd (s / 86400)
  let first := ymdToDay ymd.1 ymd.2.1 1 * 86400 + 21600
  let next := if ymd.2.1 = 12 then ymdToDay (ymd.1 + 1) 1 1 * 86400 + 21600
              else ymdToDay ymd.1 (ymd.2.1 + 1) 1 * 86400 + 21600
  (first, next)

/-- The month/year step `month_range` applies to a month start: the 06:00
instant on the 1st of the following month. -/
def nextMonthStart (y : Int) (m : Nat) : Int :=
  if m = 12 then ymdToDay (y + 1) 1 1 * 86400 + 21600
  else ymdToDay y (m + 1) 1 * 86400 + 21600

/-- A timestamp that is 06:00 on the 1st of some month. -/
def IsMonthStart (p : Int) : Prop :=
  ∃ y m, 1 ≤ m ∧ m ≤ 12 ∧ p = ymdToDay y m 1 * 86400 + 21600

/-! ### Report binning (`report.build_bins`) -/

/-- Zero-padded 2-digit decimal (for strftime-style labels). -/
def pad2 (n : Nat) : String := if n < 10 then "0" ++ toString n else toString n

/-- Zero-padded 4-digit decimal (for strftime-style labels). -/
def pad4 (n : Nat) : String :=
  if n < 10 then "000" ++ toString n
  else if n < 100 then "00" ++ toString n
  else if n < 1000 then "0" ++ toString n
  else toString n

/-- `strftime('%Y-%m-%d')` for the calendar date of day number `dn`. -/
def fmtDate (dn : Int) : String :=
  let ymd := dayToYmd dn
  (if ymd.1 < 0 then "-" ++ pad4 (-ymd.1).toNat else pad4 ymd.1.toNat) ++
    "-" ++ pad2 ymd.2.1 ++ "-" ++ pad2 ymd.2.2

/-- `strftime('%Y-%m')` for the calendar date of day number `dn`. -/
def fmtYearMonth (dn : Int) : String :=
  let ymd := dayToYmd dn
  (if ymd.1 < 0 then "-" ++ pad4 (-ymd.1).toNat else pad4 ymd.1.toNat) ++
    "-" ++ pad2 ymd.2.1

/-- The `'days'` arm of `build_bins`'s `while cur < end` loop (fuel-indexed;
one fuel unit per iteration, and the fuel the caller passes is sufficient
because `cur` strictly increases each iteration). -/
def buildBinsDays : Nat → Int → Int → List (Int × Int × String)
  | 0, _, _ => []
  | fuel + 1, cur, e =>
      if cur < e then
        (day_start cur, min (day_start cur + 86400) e, fmtDate (day_start cur / 86400)) ::
          buildBinsDays fuel (day_start cur + 86400) e
      else []

/-- The `'weeks'` arm of `build_bins`'s loop; the label is
`ws..{min(we,end) - 1s}` rendered as ISO dates. -/
def buildBinsWeeks : Nat → Int → Int → List (Int × Int × String)
  | 0, _, _ => []
  | fuel + 1, cur, e =>
      if cur < e then
        ((week_range cur).1, min (week_range cur).2 e,
          fmtDate ((week_range cur).1 / 86400) ++ ".." ++
            fmtDate ((min (week_range cur).2 e - 1) / 86400)) ::
          buildBinsWeeks fuel (week_range cur).2 e
      else []

/-- The `'months'` arm of `build_bins`'s loop. -/
def buildBinsMonths : Nat → Int → Int → List (Int × Int × String)
  | 0, _, _ => []
  | fuel + 1, cur, e =>
      if cur < e then
        ((month_range cur).1, min (month_range cur).2 e,
          fmtYearMonth ((month_range cur).1 / 86400)) ::
          buildBinsMonths fuel (month_range cur).2 e
      else []

/-- `report.build_bins`: partitions `[start, end)` into day/week/month bins;
`none` models the `ValueError('Unknown aggregation')` raised otherwise. -/
def build_bins (start e : Int) (aggregation : String) : Option (List (Int × Int × String)) :=
  if aggregation = "days" then some (buildBinsDays ((e - start).toNat + 1) start e)
  else if aggregation = "weeks" then some (buildBinsWeeks ((e - start).toNat + 1) start e)
  else if aggregation = "months" then some (buildBinsMonths ((e - start).toNat + 1) start e)
  else none

/-- Invariant of a produced bin list: starting from period start `p`, each
bin starts where announced, non-final bins end at the next period start
(`nx`), and the final bin ends exactly at `e`. -/
inductive binsOK (nx : Int → Int) (e : Int) : Int → List (Int × Int × String) → Prop where
  | last (p : Int) (b : Int × Int × String) (h1 : b.1 = p) (h2 : b.2.1 = e) (h3 : p < e) :
      binsOK nx e p [b]
  | step (p : Int) (b : Int × Int × String) (rest : List (Int × Int × String))
      (h1 : b.1 = p) (h2 : b.2.1 = nx p) (h3 : nx p < e) (h4 : binsOK nx e (nx p) rest) :
      binsOK nx e p (b :: rest)

/-- The natural period start containing `ts`, per granularity (the day start,
the week start, or the month start computed by the Time Primitives). -/
def periodStart (g : String) (ts : Int) : Int :=
  if g = "days" then day_start ts
  else if g = "weeks" then (week_range ts).1
  else (month_range ts).1

/-- One natural period forward from a period start, per granularity. -/
def periodNext (g : String) (q : Int) : Int :=
  if g = "days" then q + 86400
  else if g = "weeks" then q + 604800
  else (month_range q).2

/-! ### Task model (`model.py`) -/

/-- `model.TimeEntry`: `end = None` (here `end_ = none`) means "currently
running". -/
structure TimeEntry where
  start : Int
  end_ : Option Int
deriving DecidableEq

/-- `model.Adjustment`: a manual correction at a point in time. -/
structure Adjustment where
  ts : Int
  delta_sec : Int
deriving DecidableEq

mutual
/-- `model.Task`: recursive node.  The owned `List['Task']` of children is
the mutually inductive `TaskList` so that every recursion below is
structural (and hence evaluates by `rfl`/`decide`). -/
inductive Task where
  | mk (id name : String) (color : Option String) (children : TaskList)
      (daily_goal_sec : Option Int) (time_entries : List TimeEntry)
      (adjustments : List Adjustment)
inductive TaskList where
  | nil
  | cons (t : Task) (ts : TaskList)
end

def Task.id : Task → String
  | .mk i _ _ _ _ _ _ => i

def Task.name : Task → String
  | .mk _ n _ _ _ _ _ => n

def Task.color : Task → Option String
  | .mk _ _ c _ _ _ _ => c

def Task.children : Task → TaskList
  | .mk _ _ _ cs _ _ _ => cs

def Task.daily_goal_sec : Task → Option Int
  | .mk _ _ _ _ g _ _ => g

def Task.time_entries : Task → List TimeEntry
  | .mk _ _ _ _ _ es _ => es

def Task.adjustments : Task → List Adjustment
  | .mk _ _ _ _ _ _ as => as

def Task.withEntries : Task → List TimeEntry → Task
  | .mk i n c cs g _ as, es => .mk i n c cs g es as

def TaskList.toList : TaskList → List Task
  | .nil => []
  | .cons t ts => t :: TaskList.toList ts

/-- Per-entry contribution: the loop body shared verbatim by
`Task.own_seconds` and `Task.aggregate_seconds`.  `e.end or now()` is
`getD now` (datetimes are always truthy); the clip branch runs iff a range
bound was given (`if start_ts or end_ts`); `int((..).total_seconds())` is
exact at whole-second granularity. -/
def entrySec (now : Int) (s e : Option Int) (ent : TimeEntry) : Int :=
  let en := ent.end_.getD now
  if s.isSome || e.isSome then
    let sc := match s with | none => ent.start | some a => max ent.start a
    let ec := match e with | none => en | some b => min en b
    if sc < ec then ec - sc else 0
  else en - ent.start

/-- Adjustment membership test: `(start_ts is None or a.ts >= start_ts) and
(end_ts is None or a.ts < end_ts)`. -/
def adjInRange (s e : Option Int) (a : Adjustment) : Bool :=
  (match s with | none => true | some v => v ≤ a.ts) &&
  (match e with | none => true | some v => a.ts < v)

/-- The "own entries + own adjustments" total whose code appears verbatim in
both `own_seconds` and `aggregate_seconds`. -/
def ownTotal (now : Int) (s e : Option Int) (entries : List TimeEntry)
    (adjs : List Adjustment) : Int :=
  (entries.map (entrySec now s e)).sum +
    ((adjs.filter (adjInRange s e)).map (fun a => a.delta_sec)).sum

/-- `Task.own_seconds(start_ts, end_ts)`: this task's own clipped entry time
plus in-range adjustment deltas, excluding children.  `s`/`e` are the
optional range bounds and `now` the current instant used for open entries. -/
def own_seconds (now : Int) (s e : Option Int) (t : Task) : Int :=
  ownTotal now s e t.time_entries t.adjustments

mutual
/-- `Task.aggregate_seconds(start_ts, end_ts)`: own entries and adjustments
(the same code as `own_seconds`) plus the recursive sum over children. -/
def aggregate_seconds (now : Int) (s e : Option Int) : Task → Int
  | .mk _ _ _ cs _ es as => ownTotal now s e es as + aggChildren now s e cs
/-- The `for c in self.children: total += c.aggregate_seconds(...)` loop. -/
def aggChildren (now : Int) (s e : Option Int) : TaskList → Int
  | .nil => 0
  | .cons c rest => aggregate_seconds now s e c + aggChildren now s e rest
end

/-- `any(e.end is None for e in self.time_entries)` on a raw entry list. -/
def runningEntries (es : List TimeEntry) : Bool := es.any (fun ent => ent.end_.isNone)

/-- `Task.is_running`. -/
def Task.is_running (t : Task) : Bool := runningEntries t.time_entries

/-- `Task.start`: no-op if already running, else append an open entry. -/
def Task.start (now : Int) (t : Task) : Task :=
  if t.is_running then t else t.withEntries (t.time_entries ++ [⟨now, none⟩])

/-- Close the first open entry of a list (used on the reversed entry list:
`Task.stop` closes the most recently appended open entry). -/
def closeFirstOpen (now : Int) : List TimeEntry → List TimeEntry
  | [] => []
  | ent :: rest =>
      if ent.end_.isNone then { ent with end_ := some now } :: rest
      else ent :: closeFirstOpen now rest

/-- `Task.stop`: set `end = now()` on the most recent open entry (searching
from the end of the entry list); no-op when none is open. -/
def Task.stop (now : Int) (t : Task) : Task :=
  t.withEntries ((closeFirstOpen now t.time_entries.reverse).reverse)

mutual
/-- The effect of `model.stop_all` on one task: stop it if running (the
returned "previously running task" is not modelled; traversal order does not
affect the final state), and recurse into the children. -/
def stopAllTask (now : Int) : Task → Task
  | .mk i n c cs g es as =>
      .mk i n c (stopAllList now cs) g
        (if runningEntries es then (closeFirstOpen now es.reverse).reverse else es) as
/-- `model.stop_all` over a forest. -/
def stopAllList (now : Int) : TaskList → TaskList
  | .nil => .nil
  | .cons t ts => .cons (stopAllTask now t) (stopAllList now ts)
end

mutual
/-- `model.walk_tasks` from a single task: pre-order depth-first. -/
def walkTask : Task → List Task
  | .mk i n c cs g es as => .mk i n c cs g es as :: walkForest cs
/-- `model.walk_tasks` over a forest. -/
def walkForest : TaskList → List Task
  | .nil => []
  | .cons t ts => walkTask t ++ walkForest ts
end

mutual
/-- Apply `g` to the task at a path (head indexes the forest, the rest
descends through children): the model of calling a mutating method on one
task object held inside the forest.  An invalid path leaves the forest
unchanged. -/
def modifyForest (g : Task → Task) : List Nat → TaskList → TaskList
  | [], f => f
  | i :: rest, f => modifyIdx g i rest f
def modifyIdx (g : Task → Task) : Nat → List Nat → TaskList → TaskList
  | _, _, .nil => .nil
  | 0, rest, .cons t ts => .cons (modifyTask g rest t) ts
  | n + 1, rest, .cons t ts => .cons t (modifyIdx g n rest ts)
def modifyTask (g : Task → Task) : List Nat → Task → Task
  | [], t => g t
  | j :: rest, .mk i n c cs gl es as => .mk i n c (modifyIdx g j rest cs) gl es as
end

mutual
/-- Read the task at a path (companion to `modifyForest`). -/
def taskAtForest : List Nat → TaskList → Option Task
  | [], _ => none
  | i :: rest, f => taskAtIdx i rest f
def taskAtIdx : Nat → List Nat → TaskList → Option Task
  | _, _, .nil => none
  | 0, rest, .cons t _ => taskAtTask rest t
  | n + 1, rest, .cons _ ts => taskAtIdx n rest ts
def taskAtTask : List Nat → Task → Option Task
  | [], t => some t
  | j :: rest, .mk _ _ _ cs _ _ _ => taskAtIdx j rest cs
end

/-- The data-model invariant on a single task: at most one of its own time
entries is open.  `start` maintains it (it refuses to open a second entry);
the spec's global invariant (at most one open entry in the whole tree)
implies it for every task of the forest. -/
def AtMostOneOpen (t : Task) : Prop :=
  t.time_entries.countP (fun ent => ent.end_.isNone) ≤ 1

instance (t : Task) : Decidable (AtMostOneOpen t) :=
  inferInstanceAs (Decidable (_ ≤ _))

/-! ### Python dict model and `report.compute_breakdown` -/

/-- Python dict assignment `d[k] = v` on an insertion-ordered association
list: update an existing slot in place, otherwise append. -/
def dictInsert {α : Type} : List (String × α) → String → α → List (String × α)
  | [], k, v => [(k, v)]
  | (k', v') :: rest, k, v =>
      if k' = k then (k, v) :: rest else (k', v') :: dictInsert rest k v

/-- Python `d.get(k)` on the association-list dict model. -/
def dictLookup {α : Type} : List (String × α) → String → Option α
  | [], _ => none
  | (k', v') :: rest, k => if k' = k then some v' else dictLookup rest k

/-- The inner per-root body of `report.compute_breakdown` for one bin
`[s, e)`: each direct child whose `aggregate_seconds` over the bin is truthy
(nonzero) is stored under its name (`parts[ch.name] = sec`), then the root's
truthy `own_seconds` is stored under `'other'`. -/
def partsFor (now s e : Int) (root : Task) : List (String × Int) :=
  let parts := root.children.toList.foldl
    (fun d ch =>
      let sec := aggregate_seconds now (some s) (some e) ch
      if sec ≠ 0 then dictInsert d ch.name sec else d) []
  let own := own_seconds now (some s) (some e) root
  if own ≠ 0 then dictInsert parts "other" own else parts

/-- `report.compute_breakdown`: a list aligned with `bins`; for each bin a
dict from root name to that root's parts dict. -/
def compute_breakdown (now : Int) (roots : TaskList)
    (bins : List (Int × Int × String)) : List (List (String × List (String × Int))) :=
  bins.map (fun b =>
    roots.toList.foldl (fun d r => dictInsert d r.name (partsFor now b.1 b.2.1 r)) [])

/-- Example subtree from spec §8: child "Email" with 20 minutes (1200 s) of
recorded time inside the example bin. -/
def exEmail : Task := .mk "em" "Email" none .nil none [⟨3600, some 4800⟩] []

/-- Example tree from spec §8: root "Work" owning one hour (3600 s) with
child [`TT.exEmail`]. -/
def exWork : Task := .mk "w" "Work" none (.cons exEmail .nil) none [⟨0, some 3600⟩] []

/-- A root with two sibling children both displayed as "X", contributing
100 s and 200 s over the bin `[0, 100)` via adjustments. -/
def exDupRoot : Task :=
  .mk "r" "R" none
    (.cons (.mk "x1" "X" none .nil none [] [⟨10, 100⟩])
      (.cons (.mk "x2" "X" none .nil none [] [⟨20, 200⟩]) .nil)) none [] []

/-- A root with own time 100 s and one child "C" with no recorded time. -/
def exZeroChildRoot : Task :=
  .mk "r" "R" none (.cons (.mk "c" "C" none .nil none [] []) .nil) none [] [⟨10, 100⟩]

/-! ### Serialization (`model.task_to_dict` / `model.task_from_dict`)

Persisted scalar values are modelled by `PV`.  A string that is valid
ISO-8601 is exactly the output of `datetime.isoformat` and carries the
timestamp it denotes (`PV.dtstr t`); `PV.str` covers every other string
(which `datetime.fromisoformat` rejects).  Python floats are modelled as
exact scaled decimals `mant / 10^scale`. -/

/-- A persisted scalar value as the YAML layer delivers it. -/
inductive PV where
  | none_ : PV
  | str (s : String) : PV
  | int (n : Int) : PV
  | float (mant : Int) (scale : Nat) : PV
  | dtstr (t : Int) : PV
deriving DecidableEq

/-- Python truthiness of a persisted value (`if e.get('end')`): `None`, `""`,
`0` and `0.0` are falsy; an isoformat string is never empty, hence truthy. -/
def PV.truthy : PV → Bool
  | .none_ => false
  | .str s => s ≠ ""
  | .int n => n ≠ 0
  | .float mant _ => mant ≠ 0
  | .dtstr _ => true

/-- `datetime.fromisoformat(x)`: succeeds exactly on valid ISO strings;
a `TypeError`/`ValueError` (non-string, or unparsable string) is `none`. -/
def PV.fromisoformat : PV → Option Int
  | .dtstr t => some t
  | _ => none

/-- The whitespace `int("...")` strips from both ends of its argument. -/
def isPyWs (c : Char) : Bool :=
  c = ' ' || c = '\t' || c = '\n' || c = '\r' || c = '\x0b' || c = '\x0c'

/-- `str.strip()` as `int()` applies it. -/
def pyStrip (cs : List Char) : List Char :=
  ((cs.dropWhile isPyWs).reverse.dropWhile isPyWs).reverse

/-- Digit tail of `int("...")`'s grammar: further digits, with single
underscores allowed between digits only. -/
def pyIntGo (acc : Nat) : List Char → Option Nat
  | [] => some acc
  | '_' :: rest =>
      match rest with
      | c :: rest2 =>
          if c.isDigit then pyIntGo (acc * 10 + (c.toNat - 48)) rest2 else none
      | [] => none
  | c :: rest =>
      if c.isDigit then pyIntGo (acc * 10 + (c.toNat - 48)) rest else none

/-- `int("...")` digit grammar: a leading digit, then digits with single
underscores permitted between digits (`"1_0"` = 10); no leading, trailing
or doubled underscore. -/
def pyIntDigits : List Char → Option Nat
  | [] => none
  | c :: rest => if c.isDigit then pyIntGo (c.toNat - 48) rest else none

/-- Python `int(x)`: ints pass through, floats truncate toward zero, and
strings parse after stripping surrounding whitespace, with an optional
sign and underscore digit grouping (`int(" 3")` = 3, `int("1_0")` = 10);
anything else raises.  Isoformat strings contain separators and never
parse as integers. -/
def pyInt : PV → Option Int
  | .int n => some n
  | .float mant scale =>
      some (if 0 ≤ mant then mant / 10 ^ scale else -((-mant) / 10 ^ scale))
  | .str s =>
      (match pyStrip s.toList with
       | '-' :: cs => (pyIntDigits cs).map (fun n => -(n : Int))
       | '+' :: cs => (pyIntDigits cs).map (fun n => (n : Int))
       | cs => (pyIntDigits cs).map (fun n => (n : Int)))
  | .none_ => none
  | .dtstr _ => none

/-- A persisted time-entry record: `start` read as `e['start']` (a missing
key raises like a `None` value does — both are failures downstream), `end`
read as `e.get('end')` (missing = `None`). -/
structure RawEntry where
  start : PV
  end_ : PV
deriving DecidableEq

/-- A persisted adjustment record (`a['ts']`, `a['delta_sec']`). -/
structure RawAdj where
  ts : PV
  delta_sec : PV
deriving DecidableEq

mutual
/-- A persisted task record (`Dict[str, Any]`).  `id`/`name`/`color` model
`d.get(..)` as `Option String` (`none` = key absent or `null`);
`daily_goal_sec` likewise.  The list fields default to `[]` when missing,
which the `Option`-free lists already express. -/
inductive RawTask where
  | mk (id name color : Option String) (daily_goal_sec : Option Int)
      (time_entries : List RawEntry) (adjustments : List RawAdj)
      (children : RawTaskList)
inductive RawTaskList where
  | nil
  | cons (r : RawTask) (rs : RawTaskList)
end

def RawTask.id : RawTask → Option String
  | .mk i _ _ _ _ _ _ => i

def RawTask.name : RawTask → Option String
  | .mk _ n _ _ _ _ _ => n

/-- One iteration of the `for e in d.get('time_entries', [])` loop body. -/
def entryFromDict (e : RawEntry) : Option TimeEntry :=
  match PV.fromisoformat e.start with
  | none => none
  | some s =>
      if e.end_.truthy then
        match PV.fromisoformat e.end_ with
        | none => none
        | some t => some ⟨s, some t⟩
      else some ⟨s, none⟩

/-- One iteration of the `for a in d.get('adjustments', [])` loop body. -/
def adjFromDict (a : RawAdj) : Option Adjustment :=
  match PV.fromisoformat a.ts with
  | none => none
  | some ts =>
      match pyInt a.delta_sec with
      | none => none
      | some d => some ⟨ts, d⟩

/-- The whole time-entry loop (first failure aborts the call). -/
def entriesFromDict : List RawEntry → Option (List TimeEntry)
  | [] => some []
  | e :: rest =>
      match entryFromDict e with
      | none => none
      | some te => (entriesFromDict rest).map (fun l => te :: l)

/-- The whole adjustment loop. -/
def adjsFromDict : List RawAdj → Option (List Adjustment)
  | [] => some []
  | a :: rest =>
      match adjFromDict a with
      | none => none
      | some ta => (adjsFromDict rest).map (fun l => ta :: l)

mutual
/-- `model.task_from_dict`.  `gen` is the oracle for `uuid.uuid4().hex`
(indexed by tree path `p` so each node draws its own fresh id);
`d.get('id') or uuid4().hex` and `d.get('name') or "Unnamed"` substitute
defaults for a missing/null/empty value.  Any parse failure in the entry,
adjustment or child loops raises, modelled by `none`. -/
def task_from_dict (gen : List Nat → String) (p : List Nat) : RawTask → Option Task
  | .mk id name color goal es as cs =>
      match entriesFromDict es with
      | none => none
      | some tes =>
          match adjsFromDict as with
          | none => none
          | some tas =>
              match childrenFromDict gen p 0 cs with
              | none => none
              | some tcs =>
                  some (.mk
                    (match id with
                     | some s => if s = "" then gen p else s
                     | none => gen p)
                    (match name with
                     | some s => if s = "" then "Unnamed" else s
                     | none => "Unnamed")
                    color tcs goal tes tas)
/-- The `for ch in d.get('children', [])` loop (`i` is the child index used
to index the uuid oracle). -/
def childrenFromDict (gen : List Nat → String) (p : List Nat) (i : Nat) :
    RawTaskList → Option TaskList
  | .nil => some .nil
  | .cons r rs =>
      match task_from_dict gen (p ++ [i]) r with
      | none => none
      | some c =>
          match childrenFromDict gen p (i + 1) rs with
          | none => none
          | some cs => some (.cons c cs)
end

/-- Serialization of one time entry (`start.isoformat()`, `end.isoformat()
if end else None`). -/
def entryToDict (e : TimeEntry) : RawEntry :=
  ⟨.dtstr e.start, match e.end_ with | some t => .dtstr t | none => .none_⟩

/-- Serialization of one adjustment (`ts.isoformat()`, `int(delta_sec)`). -/
def adjToDict (a : Adjustment) : RawAdj := ⟨.dtstr a.ts, .int a.delta_sec⟩

mutual
/-- `model.task_to_dict`. -/
def task_to_dict : Task → RawTask
  | .mk i n c cs g es as =>
      .mk (some i) (some n) c g (es.map entryToDict) (as.map adjToDict)
        (childrenToDict cs)
/-- `task_to_dict` over the children list. -/
def childrenToDict : TaskList → RawTaskList
  | .nil => .nil
  | .cons t ts => .cons (task_to_dict t) (childrenToDict ts)
end

mutual
/-- Well-formedness for the round-trip: non-empty id and name, recursively
(so the truthy `or`-defaults in `task_from_dict` do not fire). -/
def wfTask : Task → Bool
  | .mk i n _ cs _ _ _ => (i ≠ "") && (n ≠ "") && wfTaskList cs
def wfTaskList : TaskList → Bool
  | .nil => true
  | .cons t ts => wfTask t && wfTaskList ts
end

/-- A malformed persisted entry: `start` missing or not ISO, or a truthy
`end` that is not ISO. -/
def entryBad (e : RawEntry) : Bool :=
  (PV.fromisoformat e.start).isNone ||
    (e.end_.truthy && (PV.fromisoformat e.end_).isNone)

/-- A malformed persisted adjustment: `ts` missing or not ISO, or a
`delta_sec` that `int()` cannot coerce. -/
def adjBad (a : RawAdj) : Bool :=
  (PV.fromisoformat a.ts).isNone || (pyInt a.delta_sec).isNone

mutual
/-- A persisted record on which `task_from_dict` raises (recursively). -/
def rawBad : RawTask → Bool
  | .mk _ _ _ _ es as cs => es.any entryBad || as.any adjBad || rawListBad cs
def rawListBad : RawTaskList → Bool
  | .nil => false
  | .cons r rs => rawBad r || rawListBad rs
end

/-- A well-formed two-level example task for the round-trip witness. -/
def exRound : Task :=
  .mk "r" "Root" (some "#ff0000")
    (.cons (.mk "c" "Child" none .nil (some 60) [⟨7, none⟩] []) .nil)
    (some 3600) [⟨1, some 5⟩, ⟨6, none⟩] [⟨2, -30⟩]

/-! ### Duration parsing (`util.parse_duration_delta`)

The regex `^\s*([+-]?)\s*(?:(\d+(?:\.\d+)?)\s*h)?\s*(?:(\d+(?:\.\d+)?)\s*m)?\s*(?:(\d+(?:\.\d+)?)\s*s)?\s*$`
(case-insensitive) is modelled by a recursive-descent parser.  Decimal
literals are kept as exact scaled integers `mant / 10^scale`, the
mathematical value of the literal, whereas the program computes `total` in
IEEE-754 doubles.  The two agree only when every float step is exact, so
the rounding theorem below is scoped by `DoubleExact` hypotheses on the
matched components, under which the program's float `total` provably
coincides with the exact value (and no `OverflowError` can occur); outside
that scope the float computation can land on a different integer. -/

/-- The regex's `\s`. -/
def isWs (c : Char) : Bool := c = ' ' || c = '\t' || c = '\n' || c = '\r'

/-- `\s*`. -/
def skipWs : List Char → List Char
  | [] => []
  | c :: rest => if isWs c then skipWs rest else c :: rest

/-- The longest digit prefix (`\d+`, greedy). -/
def takeDigits : List Char → List Char × List Char
  | [] => ([], [])
  | c :: rest =>
      if c.isDigit then
        let p := takeDigits rest
        (c :: p.1, p.2)
      else ([], c :: rest)

/-- Value of a digit string. -/
def digitsVal (ds : List Char) : Nat :=
  ds.foldl (fun acc c => acc * 10 + (c.toNat - 48)) 0

/-- `\d+(?:\.\d+)?` as an exact scaled decimal.  When a `'.'` follows the
integer part without digits after it, the group cannot match and — as for
the regex — the overall parse can only fail, since the unmatched `'.'` can
never be consumed by `\s*`, a unit letter, or `$`. -/
def parseNumber (cs : List Char) : Option ((Int × Nat) × List Char) :=
  match takeDigits cs with
  | ([], _) => none
  | (ds, rem) =>
      match rem with
      | '.' :: rest =>
          match takeDigits rest with
          | ([], _) => none
          | (fs, rem2) =>
              some (((digitsVal ds * 10 ^ fs.length + digitsVal fs : Int), fs.length), rem2)
      | _ => some (((digitsVal ds : Int), 0), rem)

/-- One optional component group `(?:(\d+(?:\.\d+)?)\s*u)?`: on failure the
position is restored (the group is skipped). -/
def tryUnit (unit : Char) (cs : List Char) : Option (Int × Nat) × List Char :=
  match parseNumber cs with
  | none => (none, cs)
  | some (q, rem) =>
      match skipWs rem with
      | [] => (none, cs)
      | u :: r3 => if u.toLower = unit then (some q, r3) else (none, cs)

/-- Exact scale-aligned sum of two decimals. -/
def addScaled (x y : Int × Nat) : Int × Nat :=
  if x.2 ≤ y.2 then (x.1 * 10 ^ (y.2 - x.2) + y.1, y.2)
  else (x.1 + y.1 * 10 ^ (x.2 - y.2), x.2)

/-- A decimal times an integer constant (3600 / 60). -/
def mulScaled (x : Int × Nat) (c : Int) : Int × Nat := (x.1 * c, x.2)

/-- The sign and the three optional matched components (`h`, `m`, `s`) of
the regex, each as an exact scaled decimal; `none` when the regex does not
match or no component is present (the two `ValueError`s). -/
def parsedComponents (str : String) :
    Option (Int × Option (Int × Nat) × Option (Int × Nat) × Option (Int × Nat)) :=
  let cs0 := skipWs str.toList
  let sgncs : Int × List Char :=
    match cs0 with
    | '+' :: rest => (1, rest)
    | '-' :: rest => (-1, rest)
    | _ => (1, cs0)
  let h := tryUnit 'h' (skipWs sgncs.2)
  let m := tryUnit 'm' (skipWs h.2)
  let sec := tryUnit 's' (skipWs m.2)
  if skipWs sec.2 = [] then
    match h.1, m.1, sec.1 with
    | none, none, none => none
    | _, _, _ => some (sgncs.1, h.1, m.1, sec.1)
  else none

/-- The exact signed value `±(h*3600 + m*60 + s)` of the matched components
— the ideal-arithmetic model of the float `total` in
`parse_duration_delta`. -/
def totalOf (sgn : Int) (h m sec : Option (Int × Nat)) : Int × Nat :=
  let tot := addScaled (addScaled (mulScaled (h.getD (0, 0)) 3600)
    (mulScaled (m.getD (0, 0)) 60)) (sec.getD (0, 0))
  (sgn * tot.1, tot.2)

/-- The parsed exact total. -/
def parsedTotal (str : String) : Option (Int × Nat) :=
  (parsedComponents str).map (fun x => totalOf x.1 x.2.1 x.2.2.1 x.2.2.2)

/-- A matched component whose decimal value is a half-integer (an integer
or an integer plus one half) of magnitude at most `2^30`; an absent
component is trivially fine.  On such components the program's
IEEE-754-double evaluation of `total` is exact: `float()` of the literal
is exact (the value is `m/2` with `|m| < 2^53`), the scalings by 3600 and
60 are integers below `2^53` (exact products), every partial sum is a
half-integer of magnitude below `2^53` (exactly representable, and float
addition of representable operands with representable sum is exact), and
negation is exact — so the float `total` equals the exact value and no
`OverflowError` can occur. -/
def DoubleExact : Option (Int × Nat) → Prop
  | none => True
  | some x => (2 * x.1) % (10 : Int) ^ x.2 = 0 ∧ x.1.natAbs ≤ 2 ^ 30 * 10 ^ x.2

instance (x : Option (Int × Nat)) : Decidable (DoubleExact x) :=
  match x with
  | none => isTrue trivial
  | some _ => inferInstanceAs (Decidable (_ = _ ∧ _ ≤ _))

/-- Python 3 `round()` to an integer on the exact value `a / 10^k`:
round to nearest, ties to even (banker's rounding). -/
def pythonRound (a : Int) (k : Nat) : Int :=
  let d : Int := 10 ^ k
  let f := a / d
  let r := a % d
  if 2 * r < d then f
  else if d < 2 * r then f + 1
  else if f % 2 = 0 then f else f + 1

/-- `util.parse_duration_delta`: `int(round(total))` of the parsed total. -/
def parse_duration_delta (s : String) : Option Int :=
  (parsedTotal s).map (fun ak => pythonRound ak.1 ak.2)

end TT

/-! ## Theorems -/

namespace TT

theorem dayStart_emod (ts : Int) : day_start ts % 86400 = 21600 := by
  simp only [day_start, DAY_CUTOFF_HOUR]
  split <;> omega

theorem dayStart_le (ts : Int) : day_start ts ≤ ts := by
  simp only [day_start, DAY_CUTOFF_HOUR]
  split <;> omega

theorem lt_dayStart_add (ts : Int) : ts < day_start ts + 86400 := by
  simp only [day_start, DAY_CUTOFF_HOUR]
  split <;> omega

theorem dayStart_aligned (ts : Int) (h : ts % 86400 = 21600) : day_start ts = ts := by
  simp only [day_start, DAY_CUTOFF_HOUR]
  split <;> omega

/-- C7: for every timestamp `ts`, if `ts`'s local hour is strictly before the
06:00 cutoff then `day_start ts` is 06:00:00 on the previous calendar date,
and otherwise it is 06:00:00 on the same calendar date; in particular
05:59:59 local on any date `D` maps to 06:00:00 on `D - 1`, and 06:00:00 on
`D` maps to 06:00:00 on `D` itself. -/
theorem claim_C7 (ts D : Int) :
    ((ts % 86400) / 3600 < 6 → day_start ts = (ts / 86400 - 1) * 86400 + 21600) ∧
    (¬ (ts % 86400) / 3600 < 6 → day_start ts = (ts / 86400) * 86400 + 21600) ∧
    day_start (D * 86400 + 21599) = (D - 1) * 86400 + 21600 ∧
    day_start (D * 86400 + 21600) = D * 86400 + 21600 := by
  refine ⟨?_, ?_, ?_, ?_⟩ <;>
    · simp only [day_start, DAY_CUTOFF_HOUR]
      split <;> omega

theorem daysInYear_ge (y : Int) : 365 ≤ daysInYear y := by
  unfold daysInYear; split <;> omega

theorem daysInMonth_pos (leap : Bool) (m : Nat) : 1 ≤ daysInMonth leap m := by
  unfold daysInMonth
  split
  · split <;> omega
  · split <;> omega

theorem yearSpanUp_succ (y : Int) (n : Nat) :
    yearSpanUp y (n + 1) = yearSpanUp y n + daysInYear (y + n) := by
  induction n generalizing y with
  | zero => simp [yearSpanUp]
  | succ k ih =>
      have h1 : yearSpanUp y (k + 1 + 1) = daysInYear y + yearSpanUp (y + 1) (k + 1) := rfl
      have h2 : yearSpanUp y (k + 1) = daysInYear y + yearSpanUp (y + 1) k := rfl
      rw [h1, ih (y + 1), h2]
      have h3 : y + 1 + (k : Int) = y + ((k : Int) + 1) := by ring
      rw [h3]
      push_cast
      omega

theorem yearSpanDown_succ (y : Int) (n : Nat) :
    yearSpanDown y (n + 1) = yearSpanDown y n + daysInYear (y - (n + 1)) := by
  induction n generalizing y with
  | zero => simp [yearSpanDown]
  | succ k ih =>
      have h1 : yearSpanDown y (k + 1 + 1) = daysInYear (y - 1) + yearSpanDown (y - 1) (k + 1) := rfl
      have h2 : yearSpanDown y (k + 1) = daysInYear (y - 1) + yearSpanDown (y - 1) k := rfl
      rw [h1, ih (y - 1), h2]
      have h3 : y - 1 - ((k : Int) + 1) = y - ((k : Int) + 1 + 1) := by ring
      rw [h3]
      push_cast
      omega

theorem yearStartDay_succ (y : Int) : yearStartDay (y + 1) = yearStartDay y + daysInYear y := by
  unfold yearStartDay
  by_cases h : 2001 ≤ y
  · have h1 : 2001 ≤ y + 1 := by omega
    simp only [h, h1, if_true]
    have h2 : (y + 1 - 2001).toNat = (y - 2001).toNat + 1 := by omega
    rw [h2, yearSpanUp_succ]
    have h3 : 2001 + ((y - 2001).toNat : Int) = y := by omega
    rw [h3]
    push_cast
    omega
  · by_cases h2 : y = 2000
    · subst h2
      norm_num
      have e2 : yearSpanDown 2001 1 = daysInYear 2000 := by
        show daysInYear (2001 - 1) + yearSpanDown (2001 - 1) 0 = daysInYear 2000
        norm_num [yearSpanDown]
      rw [e2]
      have e1 : yearSpanUp 2001 0 = 0 := rfl
      rw [e1]
      omega
    · have h3 : ¬ 2001 ≤ y + 1 := by omega
      simp only [h, h3, if_false]
      have h4 : (2001 - y).toNat = (2001 - (y + 1)).toNat + 1 := by omega
      rw [h4, yearSpanDown_succ]
      have h5 : 2001 - (((2001 - (y + 1)).toNat : Int) + 1) = y := by omega
      rw [h5]
      push_cast
      omega

theorem yearStartDay_le {y y' : Int} (h : y ≤ y') : yearStartDay y ≤ yearStartDay y' := by
  have key : ∀ (n : Nat) (z : Int), yearStartDay z ≤ yearStartDay (z + n) := by
    intro n
    induction n with
    | zero => intro z; simp
    | succ k ih =>
        intro z
        have e1 := yearStartDay_succ (z + k)
        have e2 := daysInYear_ge (z + k)
        have e3 : z + ((k : Int) + 1) = (z + k) + 1 := by ring
        have := ih z
        push_cast
        rw [e3, e1]
        omega
  have h2 : y' = y + ((y' - y).toNat : Int) := by omega
  rw [h2]
  exact key _ y

theorem findYearUp_spec : ∀ (fuel : Nat) (y : Int) (doy : Nat), doy ≤ fuel →
    ∃ n p, yearSpanUp y n + p = doy ∧ p < daysInYear (y + n) ∧
      findYearUp fuel y doy = (y + n, p) := by
  intro fuel
  induction fuel with
  | zero =>
      intro y doy h
      have hd := daysInYear_ge y
      refine ⟨0, 0, by simp [yearSpanUp]; omega, by push_cast; simpa using (by omega : 0 < daysInYear y), ?_⟩
      simp [findYearUp]
      omega
  | succ k ih =>
      intro y doy h
      rw [findYearUp]
      by_cases hd : doy < daysInYear y
      · exact ⟨0, doy, by simp [yearSpanUp], by simpa using hd, by simp [hd]⟩
      · have h365 := daysInYear_ge y
        have h2 : doy - daysInYear y ≤ k := by omega
        obtain ⟨n, p, e1, e2, e3⟩ := ih (y + 1) (doy - daysInYear y) h2
        have hc : y + ((n : Int) + 1) = y + 1 + (n : Int) := by ring
        refine ⟨n + 1, p, ?_, ?_, ?_⟩
        · have : yearSpanUp y (n + 1) = daysInYear y + yearSpanUp (y + 1) n := rfl
          omega
        · push_cast
          rw [hc]
          exact e2
        · simp only [hd, if_false]
          push_cast
          rw [hc]
          exact e3

theorem findYearDown_spec : ∀ (fuel : Nat) (y : Int) (q : Nat), 1 ≤ q → q ≤ fuel →
    ∃ n p, 1 ≤ n ∧ p + q = yearSpanDown y n ∧ p < daysInYear (y - n) ∧
      findYearDown fuel y q = (y - n, p) := by
  intro fuel
  induction fuel with
  | zero => intro y q h1 h2; omega
  | succ k ih =>
      intro y q h1 h2
      rw [findYearDown]
      by_cases hd : q ≤ daysInYear (y - 1)
      · refine ⟨1, daysInYear (y - 1) - q, by omega, ?_, ?_, by simp [hd]⟩
        · have hs1 : yearSpanDown y 1 = daysInYear (y - 1) + yearSpanDown (y - 1) 0 := rfl
          have hs2 : yearSpanDown (y - 1) 0 = 0 := rfl
          omega
        · have := daysInYear_ge (y - 1)
          push_cast
          omega
      · have h365 := daysInYear_ge (y - 1)
        have h2' : 1 ≤ q - daysInYear (y - 1) := by omega
        have h3 : q - daysInYear (y - 1) ≤ k := by omega
        obtain ⟨n, p, e0, e1, e2, e3⟩ := ih (y - 1) (q - daysInYear (y - 1)) h2' h3
        have hc : y - ((n : Int) + 1) = y - 1 - (n : Int) := by ring
        refine ⟨n + 1, p, by omega, ?_, ?_, ?_⟩
        · have : yearSpanDown y (n + 1) = daysInYear (y - 1) + yearSpanDown (y - 1) n := rfl
          omega
        · push_cast
          rw [hc]
          exact e2
        · simp only [hd, if_false]
          push_cast
          rw [hc]
          exact e3

set_option maxHeartbeats 1000000 in
set_option maxRecDepth 10000 in
theorem findMonth_spec : ∀ (leap : Bool) (doy : Nat), doy < 366 →
    (doy < if leap then 366 else 365) →
    1 ≤ (findMonth leap 11 1 doy).1 ∧ (findMonth leap 11 1 doy).1 ≤ 12 ∧
    1 ≤ (findMonth leap 11 1 doy).2 ∧
    (findMonth leap 11 1 doy).2 ≤ daysInMonth leap (findMonth leap 11 1 doy).1 ∧
    monthPrefix leap (findMonth leap 11 1 doy).1 + ((findMonth leap 11 1 doy).2 - 1) = doy := by
  decide

/-- `dayToYmd` returns a valid civil date and is a right inverse of `ymdToDay`:
the calendar conversions round-trip for every day number. -/
theorem dayToYmd_spec (dn : Int) :
    1 ≤ (dayToYmd dn).2.1 ∧ (dayToYmd dn).2.1 ≤ 12 ∧ 1 ≤ (dayToYmd dn).2.2 ∧
    (dayToYmd dn).2.2 ≤ daysInMonth (isLeap (dayToYmd dn).1) (dayToYmd dn).2.1 ∧
    ymdToDay (dayToYmd dn).1 (dayToYmd dn).2.1 (dayToYmd dn).2.2 = dn := by
  by_cases h0 : 0 ≤ dn
  · obtain ⟨n, p, e1, e2, e3⟩ := findYearUp_spec dn.toNat 2001 dn.toNat le_rfl
    have hy : dayToYmd dn =
        (2001 + (n : Int),
          (findMonth (isLeap (2001 + (n : Int))) 11 1 p).1,
          (findMonth (isLeap (2001 + (n : Int))) 11 1 p).2) := by
      simp only [dayToYmd, h0, if_true, e3]
    have hdoy : p < 366 ∧ (p < if isLeap (2001 + (n : Int)) then 366 else 365) := by
      unfold daysInYear at e2
      rcases Bool.eq_false_or_eq_true (isLeap (2001 + (n : Int))) with hb | hb <;>
        rw [hb] at e2 ⊢ <;> simp at e2 ⊢ <;> omega
    obtain ⟨m1, m2, m3, m4, m5⟩ := findMonth_spec (isLeap (2001 + (n : Int))) p hdoy.1 hdoy.2
    rw [hy]
    dsimp only
    refine ⟨m1, m2, m3, m4, ?_⟩
    unfold ymdToDay
    have hys : yearStartDay (2001 + (n : Int)) = (yearSpanUp 2001 n : Int) := by
      unfold yearStartDay
      have hge : (2001 : Int) ≤ 2001 + (n : Int) := by omega
      simp only [hge, if_true]
      have : (2001 + (n : Int) - 2001).toNat = n := by omega
      rw [this]
    rw [hys]
    omega
  · have h1 : 1 ≤ (-dn).toNat := by omega
    obtain ⟨n, p, e0, e1, e2, e3⟩ := findYearDown_spec (-dn).toNat 2001 (-dn).toNat h1 le_rfl
    have hy : dayToYmd dn =
        (2001 - (n : Int),
          (findMonth (isLeap (2001 - (n : Int))) 11 1 p).1,
          (findMonth (isLeap (2001 - (n : Int))) 11 1 p).2) := by
      simp only [dayToYmd, h0, if_false, e3]
    have hdoy : p < 366 ∧ (p < if isLeap (2001 - (n : Int)) then 366 else 365) := by
      unfold daysInYear at e2
      rcases Bool.eq_false_or_eq_true (isLeap (2001 - (n : Int))) with hb | hb <;>
        rw [hb] at e2 ⊢ <;> simp at e2 ⊢ <;> omega
    obtain ⟨m1, m2, m3, m4, m5⟩ := findMonth_spec (isLeap (2001 - (n : Int))) p hdoy.1 hdoy.2
    rw [hy]
    dsimp only
    refine ⟨m1, m2, m3, m4, ?_⟩
    unfold ymdToDay
    have hys : yearStartDay (2001 - (n : Int)) = -(yearSpanDown 2001 n : Int) := by
      unfold yearStartDay
      have hge : ¬ (2001 : Int) ≤ 2001 - (n : Int) := by omega
      simp only [hge, if_false]
      have : ((2001 : Int) - (2001 - (n : Int))).toNat = n := by omega
      rw [this]
    rw [hys]
    omega

theorem monthPrefix_succ (leap : Bool) (m : Nat) (h : 1 ≤ m) :
    monthPrefix leap (m + 1) = monthPrefix leap m + daysInMonth leap m := by
  cases m with
  | zero => omega
  | succ k => simp [monthPrefix]

theorem monthPrefix_add_le : ∀ (leap : Bool) (m : Nat), m < 13 → 1 ≤ m →
    monthPrefix leap m + daysInMonth leap m ≤ (if leap then 366 else 365) := by
  decide

theorem monthPrefix_mono : ∀ (leap : Bool) (a : Nat), a < 13 → ∀ b : Nat, b < 13 →
    a ≤ b → monthPrefix leap a ≤ monthPrefix leap b := by
  decide

theorem yearStartDay_le_ymdToDay (y : Int) (m d : Nat) (h3 : 1 ≤ d) :
    yearStartDay y ≤ ymdToDay y m d := by
  unfold ymdToDay
  omega

theorem ymdToDay_lt_yearStart_succ (y : Int) (m d : Nat) (h1 : 1 ≤ m) (h2 : m ≤ 12)
    (h4 : d ≤ daysInMonth (isLeap y) m) :
    ymdToDay y m d < yearStartDay (y + 1) := by
  rw [yearStartDay_succ]
  unfold ymdToDay
  have ha := monthPrefix_add_le (isLeap y) m (by omega) h1
  have hb : daysInYear y = if isLeap y then 366 else 365 := rfl
  omega

theorem ymdToDay_lt_nextMonth (y : Int) (m d : Nat) (h1 : 1 ≤ m) (h2 : m ≤ 12)
    (h4 : d ≤ daysInMonth (isLeap y) m) :
    ymdToDay y m d < (if m = 12 then ymdToDay (y + 1) 1 1 else ymdToDay y (m + 1) 1) := by
  by_cases h : m = 12
  · subst h
    simp only [if_true]
    exact lt_of_lt_of_le (ymdToDay_lt_yearStart_succ y 12 d h1 h2 h4)
      (yearStartDay_le_ymdToDay (y + 1) 1 1 (by omega))
  · simp only [h, if_false]
    unfold ymdToDay
    rw [monthPrefix_succ (isLeap y) m h1]
    omega

theorem ymdToDay_inj (y y' : Int) (m d m' d' : Nat)
    (a1 : 1 ≤ m) (a2 : m ≤ 12) (a3 : 1 ≤ d) (a4 : d ≤ daysInMonth (isLeap y) m)
    (b1 : 1 ≤ m') (b2 : m' ≤ 12) (b3 : 1 ≤ d') (b4 : d' ≤ daysInMonth (isLeap y') m')
    (heq : ymdToDay y m d = ymdToDay y' m' d') : y = y' ∧ m = m' ∧ d = d' := by
  have hyy : ∀ (z z' : Int) (a b a' b' : Nat), 1 ≤ a → a ≤ 12 → 1 ≤ b →
      b ≤ daysInMonth (isLeap z) a → 1 ≤ b' → z < z' →
      ymdToDay z a b < ymdToDay z' a' b' := by
    intro z z' a b a' b' c1 c2 c3 c4 c5 hlt
    exact lt_of_lt_of_le (ymdToDay_lt_yearStart_succ z a b c1 c2 c4)
      (le_trans (yearStartDay_le (by omega)) (yearStartDay_le_ymdToDay z' a' b' c5))
  have hy : y = y' := by
    rcases lt_trichotomy y y' with h | h | h
    · exact absurd heq (ne_of_lt (hyy y y' m d m' d' a1 a2 a3 a4 b3 h))
    · exact h
    · exact absurd heq.symm (ne_of_lt (hyy y' y m' d' m d b1 b2 b3 b4 a3 h))
  subst hy
  have hmm : ∀ (a b a' b' : Nat), 1 ≤ a → a ≤ 12 → 1 ≤ b →
      b ≤ daysInMonth (isLeap y) a → 1 ≤ b' → a < a' → a' ≤ 12 →
      monthPrefix (isLeap y) a + b < monthPrefix (isLeap y) a' + b' := by
    intro a b a' b' c1 c2 c3 c4 c5 hlt c8
    have e1 : monthPrefix (isLeap y) (a + 1) = monthPrefix (isLeap y) a + daysInMonth (isLeap y) a :=
      monthPrefix_succ (isLeap y) a c1
    have e2 : monthPrefix (isLeap y) (a + 1) ≤ monthPrefix (isLeap y) a' :=
      monthPrefix_mono (isLeap y) (a + 1) (by omega) a' (by omega) (by omega)
    omega
  have hkey : monthPrefix (isLeap y) m + d = monthPrefix (isLeap y) m' + d' := by
    unfold ymdToDay at heq
    omega
  have hm : m = m' := by
    rcases lt_trichotomy m m' with h | h | h
    · exact absurd hkey (ne_of_lt (hmm m d m' d' a1 a2 a3 a4 b3 h b2))
    · exact h
    · exact absurd hkey.symm (ne_of_lt (hmm m' d' m d b1 b2 b3 b4 a3 h a2))
  subst hm
  exact ⟨rfl, rfl, by omega⟩

/-- Forward round-trip at the first of a month: reading back the civil date of
the day number of `y-m-01` gives `(y, m, 1)`. -/
theorem dayToYmd_ymdToDay (y : Int) (m : Nat) (h1 : 1 ≤ m) (h2 : m ≤ 12) :
    dayToYmd (ymdToDay y m 1) = (y, m, 1) := by
  obtain ⟨s1, s2, s3, s4, s5⟩ := dayToYmd_spec (ymdToDay y m 1)
  obtain ⟨e1, e2, e3⟩ := ymdToDay_inj (dayToYmd (ymdToDay y m 1)).1 y
    (dayToYmd (ymdToDay y m 1)).2.1 (dayToYmd (ymdToDay y m 1)).2.2 m 1
    s1 s2 s3 s4 h1 h2 (by omega) (daysInMonth_pos (isLeap y) m) s5
  have : dayToYmd (ymdToDay y m 1) =
      ((dayToYmd (ymdToDay y m 1)).1, (dayToYmd (ymdToDay y m 1)).2.1,
        (dayToYmd (ymdToDay y m 1)).2.2) := rfl
  rw [this, e1, e2, e3]

/-- `month_range` at a month-start instant: it returns that instant as the
window start and the next month's start as the window end. -/
theorem monthRange_eq_of_monthStart (y : Int) (m : Nat) (h1 : 1 ≤ m) (h2 : m ≤ 12) :
    month_range (ymdToDay y m 1 * 86400 + 21600) =
      (ymdToDay y m 1 * 86400 + 21600, nextMonthStart y m) := by
  have hal : (ymdToDay y m 1 * 86400 + 21600) % 86400 = 21600 := by omega
  have hds : day_start (ymdToDay y m 1 * 86400 + 21600) = ymdToDay y m 1 * 86400 + 21600 :=
    dayStart_aligned _ hal
  simp only [month_range, hds]
  have hdiv : (ymdToDay y m 1 * 86400 + 21600) / 86400 = ymdToDay y m 1 := by omega
  rw [hdiv, dayToYmd_ymdToDay y m h1 h2]
  unfold nextMonthStart
  by_cases h : m = 12 <;> simp [h]

/-- The step to the next month start strictly advances time. -/
theorem lt_nextMonthStart (y : Int) (m : Nat) (h1 : 1 ≤ m) (h2 : m ≤ 12) :
    ymdToDay y m 1 * 86400 + 21600 < nextMonthStart y m := by
  have := ymdToDay_lt_nextMonth y m 1 h1 h2 (daysInMonth_pos (isLeap y) m)
  unfold nextMonthStart
  by_cases h : m = 12 <;> simp [h] at this ⊢ <;> omega

/-- The next month start is itself a month start. -/
theorem nextMonthStart_isStart (y : Int) (m : Nat) (h1 : 1 ≤ m) (h2 : m ≤ 12) :
    ∃ y2 m2, 1 ≤ m2 ∧ m2 ≤ 12 ∧ nextMonthStart y m = ymdToDay y2 m2 1 * 86400 + 21600 := by
  unfold nextMonthStart
  by_cases h : m = 12
  · exact ⟨y + 1, 1, by omega, by omega, by simp [h]⟩
  · exact ⟨y, m + 1, by omega, by omega, by simp [h]⟩

/-- General shape of `month_range`: the window starts at a month start at or
before `day_start ts`, ends at the following month start strictly after `ts`,
and re-applying `month_range` to the window start reproduces the window. -/
theorem monthRange_spec (ts : Int) :
    ∃ y m, 1 ≤ m ∧ m ≤ 12 ∧
      month_range ts = (ymdToDay y m 1 * 86400 + 21600, nextMonthStart y m) ∧
      (month_range ts).1 ≤ day_start ts ∧
      day_start ts + 86400 ≤ (month_range ts).2 := by
  obtain ⟨s1, s2, s3, s4, s5⟩ := dayToYmd_spec (day_start ts / 86400)
  refine ⟨(dayToYmd (day_start ts / 86400)).1, (dayToYmd (day_start ts / 86400)).2.1,
    s1, s2, ?_, ?_, ?_⟩
  · simp only [month_range]
    unfold nextMonthStart
    by_cases h : (dayToYmd (day_start ts / 86400)).2.1 = 12 <;> simp [h]
  · simp only [month_range]
    have hmod := dayStart_emod ts
    have hself : day_start ts = (day_start ts / 86400) * 86400 + 21600 := by omega
    have hle : ymdToDay (dayToYmd (day_start ts / 86400)).1
        (dayToYmd (day_start ts / 86400)).2.1 1 ≤ day_start ts / 86400 := by
      unfold ymdToDay at s5 ⊢
      omega
    omega
  · simp only [month_range]
    have hmod := dayStart_emod ts
    have hself : day_start ts = (day_start ts / 86400) * 86400 + 21600 := by omega
    have hlt := ymdToDay_lt_nextMonth (dayToYmd (day_start ts / 86400)).1
      (dayToYmd (day_start ts / 86400)).2.1 (dayToYmd (day_start ts / 86400)).2.2 s1 s2 s4
    rw [s5] at hlt
    by_cases h : (dayToYmd (day_start ts / 86400)).2.1 = 12 <;> simp [h] at hlt ⊢ <;> omega

theorem weekRange_emod (ts : Int) : (week_range ts).1 % 604800 = 21600 := by
  have h := dayStart_emod ts
  simp only [week_range, weekday]
  omega

theorem weekRange_fst_le (ts : Int) : (week_range ts).1 ≤ day_start ts := by
  simp only [week_range, weekday]
  have h1 : 0 ≤ (day_start ts / 86400) % 7 := by omega
  omega

theorem dayStart_add_le_weekRange_snd (ts : Int) : day_start ts + 86400 ≤ (week_range ts).2 := by
  simp only [week_range, weekday]
  have h1 : (day_start ts / 86400) % 7 ≤ 6 := by omega
  omega

theorem weekRange_aligned (p : Int) (h : p % 604800 = 21600) : week_range p = (p, p + 604800) := by
  have h86 : p % 86400 = 21600 := by omega
  have hds : day_start p = p := dayStart_aligned p h86
  simp only [week_range, weekday, hds]
  have h7 : (p / 86400) % 7 = 0 := by omega
  rw [h7]
  norm_num

theorem binsOK_ne_nil {nx : Int → Int} {e p : Int} {B : List (Int × Int × String)}
    (h : binsOK nx e p B) : B ≠ [] := by
  cases h <;> simp

theorem binsOK_head {nx : Int → Int} {e p : Int} {B : List (Int × Int × String)}
    (h : binsOK nx e p B) : B.head?.map (fun b => b.1) = some p := by
  cases h with
  | last p b h1 h2 h3 => simp [h1]
  | step p b rest h1 h2 h3 h4 => simp [h1]

theorem binsOK_last {nx : Int → Int} {e p : Int} {B : List (Int × Int × String)}
    (h : binsOK nx e p B) : B.getLast?.map (fun b => b.2.1) = some e := by
  induction h with
  | last p b h1 h2 h3 => simp [h2]
  | step p b rest h1 h2 h3 h4 ih =>
      have hne := binsOK_ne_nil h4
      cases rest with
      | nil => exact absurd rfl hne
      | cons c cs => simpa [List.getLast?_cons_cons] using ih

theorem binsOK_chain {nx : Int → Int} {e p : Int} {B : List (Int × Int × String)}
    (h : binsOK nx e p B) : List.Chain' (fun a b => a.2.1 = b.1) B := by
  induction h with
  | last p b h1 h2 h3 => simp
  | step p b rest h1 h2 h3 h4 ih =>
      cases rest with
      | nil => simp
      | cons c cs =>
          rw [List.chain'_cons]
          refine ⟨?_, ih⟩
          have := binsOK_head h4
          simp at this
          rw [h2, this]

theorem binsOK_span {nx : Int → Int} {e p : Int} {B : List (Int × Int × String)}
    (h : binsOK nx e p B) : ∀ b ∈ B.dropLast, b.2.1 = nx b.1 := by
  induction h with
  | last p b h1 h2 h3 => simp
  | step p b rest h1 h2 h3 h4 ih =>
      intro x hx
      have hne := binsOK_ne_nil h4
      cases rest with
      | nil => exact absurd rfl hne
      | cons c cs =>
          rw [List.dropLast_cons_of_ne_nil (by simp)] at hx
          rcases List.mem_cons.mp hx with hh | ht
          · subst hh; rw [h2, h1]
          · exact ih x ht

theorem binsOK_bounds {nx : Int → Int} {e p : Int} {B : List (Int × Int × String)}
    (hx : ∀ q, q < nx q) (h : binsOK nx e p B) : ∀ b ∈ B, b.1 < b.2.1 ∧ b.2.1 ≤ e := by
  induction h with
  | last p b h1 h2 h3 => intro x hxm; simp at hxm; subst hxm; omega
  | step p b rest h1 h2 h3 h4 ih =>
      intro x hxm
      rcases List.mem_cons.mp hxm with hh | ht
      · subst hh
        have := hx p
        constructor <;> omega
      · exact ih x ht

theorem binsOK_cover {nx : Int → Int} {e p : Int} {B : List (Int × Int × String)}
    (h : binsOK nx e p B) : ∀ x, p ≤ x → x < e → ∃ b ∈ B, b.1 ≤ x ∧ x < b.2.1 := by
  induction h with
  | last p b h1 h2 h3 =>
      intro x hx1 hx2
      exact ⟨b, by simp, by omega, by omega⟩
  | step p b rest h1 h2 h3 h4 ih =>
      intro x hx1 hx2
      by_cases hc : x < nx p
      · exact ⟨b, by simp, by omega, by omega⟩
      · obtain ⟨c, hc1, hc2, hc3⟩ := ih x (by omega) hx2
        exact ⟨c, List.mem_cons_of_mem _ hc1, hc2, hc3⟩

theorem buildBinsDays_stop (fuel : Nat) (cur e : Int) (h : ¬ cur < e) :
    buildBinsDays fuel cur e = [] := by
  cases fuel <;> simp [buildBinsDays, h]

theorem buildBinsDays_step (fuel : Nat) (cur e : Int) (hf : 0 < fuel) (h : cur < e) :
    buildBinsDays fuel cur e =
      (day_start cur, min (day_start cur + 86400) e, fmtDate (day_start cur / 86400)) ::
        buildBinsDays (fuel - 1) (day_start cur + 86400) e := by
  cases fuel with
  | zero => omega
  | succ k => simp [buildBinsDays, h]

theorem buildBinsDays_ok : ∀ (fuel : Nat) (cur e : Int), cur < e → (e - cur).toNat ≤ fuel →
    binsOK (fun q => q + 86400) e (day_start cur) (buildBinsDays fuel cur e) := by
  intro fuel
  induction fuel with
  | zero => intro cur e h hf; omega
  | succ k ih =>
      intro cur e h hf
      rw [buildBinsDays_step (k + 1) cur e (by omega) h, Nat.add_sub_cancel]
      have hcur : cur < day_start cur + 86400 := lt_dayStart_add cur
      have hmod : (day_start cur + 86400) % 86400 = 21600 := by
        have := dayStart_emod cur; omega
      by_cases hc : day_start cur + 86400 < e
      · have ihh := ih (day_start cur + 86400) e hc (by omega)
        rw [dayStart_aligned _ hmod] at ihh
        refine binsOK.step _ _ _ rfl ?_ hc ihh
        simp only
        omega
      · rw [buildBinsDays_stop k _ e hc]
        refine binsOK.last _ _ rfl ?_ ?_
        · simp only; omega
        · have := dayStart_le cur; omega

theorem buildBinsWeeks_stop (fuel : Nat) (cur e : Int) (h : ¬ cur < e) :
    buildBinsWeeks fuel cur e = [] := by
  cases fuel <;> simp [buildBinsWeeks, h]

theorem buildBinsWeeks_step (fuel : Nat) (cur e : Int) (hf : 0 < fuel) (h : cur < e) :
    buildBinsWeeks fuel cur e =
      ((week_range cur).1, min (week_range cur).2 e,
        fmtDate ((week_range cur).1 / 86400) ++ ".." ++
          fmtDate ((min (week_range cur).2 e - 1) / 86400)) ::
        buildBinsWeeks (fuel - 1) (week_range cur).2 e := by
  cases fuel with
  | zero => omega
  | succ k => simp [buildBinsWeeks, h]

theorem weekRange_snd_eq (ts : Int) : (week_range ts).2 = (week_range ts).1 + 604800 := by
  simp [week_range]

theorem buildBinsWeeks_ok : ∀ (fuel : Nat) (cur e : Int), cur < e → (e - cur).toNat ≤ fuel →
    binsOK (fun q => q + 604800) e ((week_range cur).1) (buildBinsWeeks fuel cur e) := by
  intro fuel
  induction fuel with
  | zero => intro cur e h hf; omega
  | succ k ih =>
      intro cur e h hf
      rw [buildBinsWeeks_step (k + 1) cur e (by omega) h, Nat.add_sub_cancel]
      have hprog : cur < (week_range cur).2 := by
        have h1 := dayStart_add_le_weekRange_snd cur
        have h2 := lt_dayStart_add cur
        omega
      have hsnd := weekRange_snd_eq cur
      have hmod : (week_range cur).2 % 604800 = 21600 := by
        have := weekRange_emod cur; omega
      by_cases hc : (week_range cur).2 < e
      · have ihh := ih ((week_range cur).2) e hc (by omega)
        rw [weekRange_aligned _ hmod] at ihh
        simp only at ihh
        refine binsOK.step _ _ _ rfl ?_ (by omega) ?_
        · simp only; omega
        · rw [hsnd] at ihh; exact ihh
      · rw [buildBinsWeeks_stop k _ e hc]
        refine binsOK.last _ _ rfl ?_ ?_
        · simp only; omega
        · have h1 := weekRange_fst_le cur
          have h2 := dayStart_le cur
          omega

theorem buildBinsMonths_stop (fuel : Nat) (cur e : Int) (h : ¬ cur < e) :
    buildBinsMonths fuel cur e = [] := by
  cases fuel <;> simp [buildBinsMonths, h]

theorem buildBinsMonths_step (fuel : Nat) (cur e : Int) (hf : 0 < fuel) (h : cur < e) :
    buildBinsMonths fuel cur e =
      ((month_range cur).1, min (month_range cur).2 e,
        fmtYearMonth ((month_range cur).1 / 86400)) ::
        buildBinsMonths (fuel - 1) (month_range cur).2 e := by
  cases fuel with
  | zero => omega
  | succ k => simp [buildBinsMonths, h]

theorem lt_monthRange_snd (ts : Int) : ts < (month_range ts).2 := by
  obtain ⟨y, m, h1, h2, heq, hle, hge⟩ := monthRange_spec ts
  have := lt_dayStart_add ts
  omega

theorem monthRange_fst_le (ts : Int) : (month_range ts).1 ≤ ts := by
  obtain ⟨y, m, h1, h2, heq, hle, hge⟩ := monthRange_spec ts
  have := dayStart_le ts
  omega

theorem monthRange_idem (ts : Int) :
    month_range ((month_range ts).2) = ((month_range ts).2, (month_range (month_range ts).2).2) := by
  obtain ⟨y, m, h1, h2, heq, hle, hge⟩ := monthRange_spec ts
  obtain ⟨y2, m2, g1, g2, g3⟩ := nextMonthStart_isStart y m h1 h2
  have e1 : (month_range ts).2 = ymdToDay y2 m2 1 * 86400 + 21600 := by rw [heq, g3]
  rw [e1, monthRange_eq_of_monthStart y2 m2 g1 g2]

theorem buildBinsMonths_ok : ∀ (fuel : Nat) (cur e : Int), cur < e → (e - cur).toNat ≤ fuel →
    binsOK (fun q => (month_range q).2) e ((month_range cur).1) (buildBinsMonths fuel cur e) := by
  intro fuel
  induction fuel with
  | zero => intro cur e h hf; omega
  | succ k ih =>
      intro cur e h hf
      rw [buildBinsMonths_step (k + 1) cur e (by omega) h, Nat.add_sub_cancel]
      have hprog : cur < (month_range cur).2 := lt_monthRange_snd cur
      obtain ⟨y, m, h1, h2, heq, hle, hge⟩ := monthRange_spec cur
      have hnx : (month_range ((month_range cur).1)).2 = (month_range cur).2 := by
        have e1 : (month_range cur).1 = ymdToDay y m 1 * 86400 + 21600 := by rw [heq]
        have e2 : (month_range cur).2 = nextMonthStart y m := by rw [heq]
        rw [e1, e2, monthRange_eq_of_monthStart y m h1 h2]
      by_cases hc : (month_range cur).2 < e
      · have ihh := ih ((month_range cur).2) e hc (by omega)
        have hfst : (month_range ((month_range cur).2)).1 = (month_range cur).2 := by
          rw [monthRange_idem cur]
        rw [hfst] at ihh
        refine binsOK.step _ _ _ rfl ?_ (by rw [hnx]; exact hc) ?_
        · simp only; omega
        · rw [hnx]; exact ihh
      · rw [buildBinsMonths_stop k _ e hc]
        refine binsOK.last _ _ rfl ?_ ?_
        · simp only; omega
        · have := monthRange_fst_le cur; omega

/-- C3 (amended): for every `start < end` and granularity in
days/weeks/months, `build_bins` returns an ordered sequence of contiguous
bins covering exactly `[periodStart(start), end)`, where `periodStart(start)`
is the natural period start containing `start` (equal to `start` whenever
`start` lies on a period boundary); the first bin starts at
`periodStart(start)` (not at `start` in general), every bin except possibly
the last spans exactly one natural period, and the final bin's end is
truncated to `end`; for a day-aligned `start` and `end - start` = 2.5 days
the days granularity produces exactly 3 bins, the last 12h < 24h long. -/
theorem claim_C3 (s e : Int) (g : String) (hse : s < e)
    (hg : g = "days" ∨ g = "weeks" ∨ g = "months") :
    (∃ B, build_bins s e g = some B ∧ B ≠ [] ∧
      B.head?.map (fun b => b.1) = some (periodStart g s) ∧
      periodStart g s ≤ s ∧
      List.Chain' (fun a b => a.2.1 = b.1) B ∧
      (∀ b ∈ B.dropLast, b.2.1 = periodNext g b.1) ∧
      B.getLast?.map (fun b => b.2.1) = some e ∧
      (∀ b ∈ B, b.1 < b.2.1 ∧ b.2.1 ≤ e) ∧
      (∀ x, periodStart g s ≤ x → x < e → ∃ b ∈ B, b.1 ≤ x ∧ x < b.2.1)) ∧
    (s % 86400 = 21600 → day_start s = s) ∧
    (s % 604800 = 21600 → (week_range s).1 = s) ∧
    (IsMonthStart s → (month_range s).1 = s) ∧
    (s % 86400 = 21600 →
      ∃ C, build_bins s (s + 216000) "days" = some C ∧ C.length = 3 ∧
        C.getLast?.map (fun b => b.2.1 - b.1) = some 43200 ∧ (43200 : Int) < 86400) := by
  refine ⟨?_, fun h => dayStart_aligned s h, ?_, ?_, ?_⟩
  · rcases hg with hg | hg | hg
    · subst hg
      have hbb : build_bins s e "days" = some (buildBinsDays ((e - s).toNat + 1) s e) := by
        unfold build_bins
        rw [if_pos rfl]
      have hok := buildBinsDays_ok ((e - s).toNat + 1) s e hse (by omega)
      have hps : periodStart "days" s = day_start s := by
        unfold periodStart
        rw [if_pos rfl]
      have hpn : ∀ q : Int, periodNext "days" q = q + 86400 := by
        intro q
        unfold periodNext
        rw [if_pos rfl]
      have hx : ∀ q : Int, q < q + 86400 := fun q => by omega
      refine ⟨_, hbb, binsOK_ne_nil hok, by rw [hps]; exact binsOK_head hok,
        by rw [hps]; exact dayStart_le s, binsOK_chain hok, ?_,
        binsOK_last hok, binsOK_bounds hx hok, by rw [hps]; exact binsOK_cover hok⟩
      intro b hb
      rw [hpn]
      exact binsOK_span hok b hb
    · subst hg
      have hbb : build_bins s e "weeks" = some (buildBinsWeeks ((e - s).toNat + 1) s e) := by
        unfold build_bins
        rw [if_neg (by decide), if_pos rfl]
      have hok := buildBinsWeeks_ok ((e - s).toNat + 1) s e hse (by omega)
      have hps : periodStart "weeks" s = (week_range s).1 := by
        unfold periodStart
        rw [if_neg (by decide), if_pos rfl]
      have hpn : ∀ q : Int, periodNext "weeks" q = q + 604800 := by
        intro q
        unfold periodNext
        rw [if_neg (by decide), if_pos rfl]
      have hx : ∀ q : Int, q < q + 604800 := fun q => by omega
      have hle : (week_range s).1 ≤ s :=
        le_trans (weekRange_fst_le s) (dayStart_le s)
      refine ⟨_, hbb, binsOK_ne_nil hok, by rw [hps]; exact binsOK_head hok,
        by rw [hps]; exact hle, binsOK_chain hok, ?_,
        binsOK_last hok, binsOK_bounds hx hok, by rw [hps]; exact binsOK_cover hok⟩
      intro b hb
      rw [hpn]
      exact binsOK_span hok b hb
    · subst hg
      have hbb : build_bins s e "months" = some (buildBinsMonths ((e - s).toNat + 1) s e) := by
        unfold build_bins
        rw [if_neg (by decide), if_neg (by decide), if_pos rfl]
      have hok := buildBinsMonths_ok ((e - s).toNat + 1) s e hse (by omega)
      have hps : periodStart "months" s = (month_range s).1 := by
        unfold periodStart
        rw [if_neg (by decide), if_neg (by decide)]
      have hpn : ∀ q : Int, periodNext "months" q = (month_range q).2 := by
        intro q
        unfold periodNext
        rw [if_neg (by decide), if_neg (by decide)]
      refine ⟨_, hbb, binsOK_ne_nil hok, by rw [hps]; exact binsOK_head hok,
        by rw [hps]; exact monthRange_fst_le s, binsOK_chain hok, ?_,
        binsOK_last hok, binsOK_bounds lt_monthRange_snd hok,
        by rw [hps]; exact binsOK_cover hok⟩
      intro b hb
      rw [hpn]
      exact binsOK_span hok b hb
  · intro h
    rw [weekRange_aligned s h]
  · rintro ⟨y, m, h1, h2, rfl⟩
    rw [monthRange_eq_of_monthStart y m h1 h2]
  · intro hal
    have hbb : build_bins s (s + 216000) "days" =
        some (buildBinsDays 216001 s (s + 216000)) := by
      unfold build_bins
      rw [if_pos rfl]
      have : ((s + 216000 : Int) - s).toNat + 1 = 216001 := by omega
      rw [this]
    have ha1 : day_start s = s := dayStart_aligned s hal
    have ha2 : day_start (s + 86400) = s + 86400 := dayStart_aligned _ (by omega)
    have ha3 : day_start (s + 172800) = s + 172800 := dayStart_aligned _ (by omega)
    have st1 := buildBinsDays_step 216001 s (s + 216000) (by omega) (by omega)
    have st2 := buildBinsDays_step 216000 (s + 86400) (s + 216000) (by omega) (by omega)
    have st3 := buildBinsDays_step 215999 (s + 172800) (s + 216000) (by omega) (by omega)
    have st4 := buildBinsDays_stop 215998 (s + 259200) (s + 216000) (by omega)
    rw [ha1] at st1
    rw [ha2] at st2
    rw [ha3] at st3
    have f1 : (216001 : Nat) - 1 = 216000 := rfl
    have f2 : (216000 : Nat) - 1 = 215999 := rfl
    have f3 : (215999 : Nat) - 1 = 215998 := rfl
    rw [f1] at st1
    rw [f2] at st2
    rw [f3] at st3
    have m1 : min (s + 86400) (s + 216000) = s + 86400 := by omega
    have m2 : min (s + 86400 + 86400) (s + 216000) = s + 172800 := by omega
    have m3 : min (s + 172800 + 86400) (s + 216000) = s + 216000 := by omega
    rw [m1] at st1
    rw [m2] at st2
    rw [m3] at st3
    have hb2 : s + 86400 + 86400 = s + 172800 := by omega
    have hb3 : s + 172800 + 86400 = s + 259200 := by omega
    rw [hb2] at st2
    rw [hb3] at st3
    rw [st2, st3, st4] at st1
    refine ⟨_, by rw [hbb, st1], by simp, by simp, by omega⟩

/-- Witness for C3 (amended) at `start` = 21600 (the 06:00 boundary of
epoch day 0) and `end` = 237600, granularity days. -/
theorem claim_C3_wit :
    ∃ B, build_bins 21600 237600 "days" = some B ∧ B ≠ [] ∧
      B.head?.map (fun b => b.1) = some (periodStart "days" 21600) ∧
      B.getLast?.map (fun b => b.2.1) = some 237600 := by
  obtain ⟨⟨B, h1, h2, h3, _, _, _, h7, _, _⟩, _⟩ :=
    claim_C3 21600 237600 "days" (by norm_num) (Or.inl rfl)
  exact ⟨B, h1, h2, h3, h7⟩

/-- Counterexample to C3 as stated: with `start` = 72000 (20:00 local on
epoch day 0, not on the 06:00 boundary) and `end - start` exactly 2.5 days,
`build_bins(start, end, 'days')` produces 4 bins, not 3, and its first bin
starts at 21600 = `day_start(start)`, not at `start`. -/
theorem claim_C3_cex :
    (build_bins 72000 288000 "days").map (fun B => B.map (fun b => (b.1, b.2.1))) =
      some [(21600, 108000), (108000, 194400), (194400, 280800), (280800, 288000)] ∧
    (288000 - 72000 : Int) = 216000 ∧
    (build_bins 72000 288000 "days").map (fun B => B.length) = some 4 ∧
    (build_bins 72000 288000 "days").map (fun B => B.head?.map (fun b => b.1)) =
      some (some 21600) ∧
    (21600 : Int) ≠ 72000 := by
  refine ⟨by decide, by decide, by decide, by decide, by decide⟩

theorem aggChildren_eq (now : Int) (s e : Option Int) :
    (cs : TaskList) → aggChildren now s e cs = (cs.toList.map (aggregate_seconds now s e)).sum
  | .nil => by simp [aggChildren, TaskList.toList]
  | .cons c rest => by
      have ih := aggChildren_eq now s e rest
      simp [aggChildren, TaskList.toList, ih]

/-- C1: for every task and every query range (including the unrestricted
one, `s = e = none`), `aggregate_seconds` equals `own_seconds` plus the sum
of the children's `aggregate_seconds` over the same range — equivalently,
`aggregate_seconds - own_seconds` is exactly the sum over direct children. -/
theorem claim_C1 (now : Int) (s e : Option Int) (t : Task) :
    aggregate_seconds now s e t =
      own_seconds now s e t + (t.children.toList.map (aggregate_seconds now s e)).sum := by
  cases t with
  | mk i n c cs g es as =>
      show ownTotal now s e es as + aggChildren now s e cs = _
      rw [aggChildren_eq]
      rfl

theorem countP_rev (p : TimeEntry → Bool) (l : List TimeEntry) :
    l.reverse.countP p = l.countP p := by
  rw [List.countP_eq_length_filter, List.countP_eq_length_filter, List.filter_reverse,
    List.length_reverse]

theorem countP_closeFirstOpen (now : Int) : ∀ es : List TimeEntry,
    es.countP (fun ent => ent.end_.isNone) ≤ 1 →
    (closeFirstOpen now es).countP (fun ent => ent.end_.isNone) = 0
  | [], _ => by simp [closeFirstOpen]
  | ent :: rest, h => by
      unfold closeFirstOpen
      rw [List.countP_cons] at h
      by_cases ho : ent.end_.isNone
      · rw [if_pos ho, List.countP_cons]
        have h1 : rest.countP (fun ent => ent.end_.isNone) = 0 := by
          rw [if_pos ho] at h
          omega
        rw [h1]
        rfl
      · rw [if_neg ho, List.countP_cons]
        have h1 : rest.countP (fun ent => ent.end_.isNone) ≤ 1 := by
          rw [if_neg ho] at h
          omega
        rw [countP_closeFirstOpen now rest h1]
        simp [ho]

theorem runningEntries_false_iff (l : List TimeEntry) :
    (runningEntries l = false) ↔ l.countP (fun ent => ent.end_.isNone) = 0 := by
  unfold runningEntries
  rw [List.any_eq_false, List.countP_eq_zero]

/-- One step of `stop_all` on a task with at most one open entry leaves it
not running. -/
theorem stopAllTask_not_running (now : Int) (v : Task) (h : AtMostOneOpen v) :
    (stopAllTask now v).is_running = false := by
  cases v with
  | mk i n c cs g es as =>
      unfold AtMostOneOpen at h
      simp only [Task.time_entries] at h
      show runningEntries
        (if runningEntries es then (closeFirstOpen now es.reverse).reverse else es) = false
      by_cases hr : runningEntries es
      · rw [if_pos hr, runningEntries_false_iff, countP_rev, countP_closeFirstOpen]
        rw [countP_rev]
        exact h
      · rw [if_neg hr]
        exact Bool.not_eq_true _ ▸ (by simpa using hr)

mutual
theorem walk_stopAllTask (now : Int) :
    ∀ t : Task, walkTask (stopAllTask now t) = (walkTask t).map (stopAllTask now)
  | .mk i n c cs g es as => by
      have ih := walk_stopAllList now cs
      simp [stopAllTask, walkTask, ih]
theorem walk_stopAllList (now : Int) :
    ∀ f : TaskList, walkForest (stopAllList now f) = (walkForest f).map (stopAllTask now)
  | .nil => by simp [stopAllList, walkForest]
  | .cons t ts => by
      have ih1 := walk_stopAllTask now t
      have ih2 := walk_stopAllList now ts
      simp [stopAllList, walkForest, ih1, ih2]
end

/-- After `stop_all`, no task in the forest is running (given the data-model
invariant that each task has at most one open entry). -/
theorem stopAll_all_stopped (now : Int) (f : TaskList)
    (hwf : ∀ u ∈ walkForest f, AtMostOneOpen u) :
    ∀ u ∈ walkForest (stopAllList now f), u.is_running = false := by
  intro u hu
  rw [walk_stopAllList] at hu
  obtain ⟨v, hv, rfl⟩ := List.mem_map.mp hu
  exact stopAllTask_not_running now v (hwf v hv)

theorem start_is_running (now2 : Int) (t : Task) (h : t.is_running = false) :
    (Task.start now2 t).is_running = true := by
  cases t with
  | mk i n c cs g es as =>
      unfold Task.start
      rw [h]
      simp only [Bool.false_eq_true, if_false, Task.withEntries]
      show runningEntries (es ++ [⟨now2, none⟩]) = true
      unfold runningEntries
      simp

theorem walk_start (now2 : Int) (t : Task) (h : t.is_running = false) :
    walkTask (Task.start now2 t) =
      Task.start now2 t :: walkForest t.children := by
  cases t with
  | mk i n c cs g es as =>
      unfold Task.start
      rw [h]
      simp only [Bool.false_eq_true, if_false, Task.withEntries, Task.children]
      rfl

theorem filter_not_running {l : List Task} (h : ∀ u ∈ l, u.is_running = false) :
    l.filter (fun u => u.is_running) = [] := by
  rw [List.filter_eq_nil_iff]
  intro a ha
  simp [h a ha]

mutual
theorem startAt_task (now2 : Int) :
    ∀ (rest : List Nat) (t a : Task), taskAtTask rest t = some a →
    (∀ u ∈ walkTask t, u.is_running = false) →
    (walkTask (modifyTask (Task.start now2) rest t)).filter (fun u => u.is_running) =
      [Task.start now2 a]
  | [], t, a, hp, hnr => by
      have ha : t = a := by simpa [taskAtTask] using hp
      subst ha
      have htr : t.is_running = false := hnr t (by cases t; simp [walkTask])
      have hmod : modifyTask (Task.start now2) [] t = Task.start now2 t := by
        rw [modifyTask]
      rw [hmod, walk_start now2 t htr]
      have hch : ∀ u ∈ walkForest t.children, u.is_running = false := by
        intro u hu
        refine hnr u ?_
        cases t
        simp [walkTask, Task.children] at hu ⊢
        exact Or.inr hu
      rw [List.filter_cons]
      rw [start_is_running now2 t htr]
      simp only [if_true]
      rw [filter_not_running hch]
  | j :: rest, .mk i n c cs g es as, a, hp, hnr => by
      have hp' : taskAtIdx j rest cs = some a := hp
      have hnr' : ∀ u ∈ walkForest cs, u.is_running = false := by
        intro u hu
        exact hnr u (by simp [walkTask]; exact Or.inr hu)
      have ih := startAt_idx now2 j rest cs a hp' hnr'
      show (walkTask (.mk i n c (modifyIdx (Task.start now2) j rest cs) g es as)).filter
        (fun u => u.is_running) = _
      rw [walkTask]
      rw [List.filter_cons]
      have hroot : Task.is_running (.mk i n c (modifyIdx (Task.start now2) j rest cs) g es as)
          = false := by
        have := hnr (.mk i n c cs g es as) (by simp [walkTask])
        simpa [Task.is_running, Task.time_entries] using this
      rw [hroot]
      simp only [Bool.false_eq_true, if_false]
      exact ih
theorem startAt_idx (now2 : Int) :
    ∀ (i : Nat) (rest : List Nat) (f : TaskList) (a : Task), taskAtIdx i rest f = some a →
    (∀ u ∈ walkForest f, u.is_running = false) →
    (walkForest (modifyIdx (Task.start now2) i rest f)).filter (fun u => u.is_running) =
      [Task.start now2 a]
  | _, _, .nil, a, hp, _ => by simp [taskAtIdx] at hp
  | 0, rest, .cons t ts, a, hp, hnr => by
      have hp' : taskAtTask rest t = some a := hp
      have ih := startAt_task now2 rest t a hp' (by
        intro u hu
        exact hnr u (by simp [walkForest]; exact Or.inl hu))
      show (walkForest (.cons (modifyTask (Task.start now2) rest t) ts)).filter
        (fun u => u.is_running) = _
      rw [walkForest, List.filter_append, ih]
      rw [filter_not_running (by
        intro u hu
        exact hnr u (by simp [walkForest]; exact Or.inr hu))]
      simp
  | n + 1, rest, .cons t ts, a, hp, hnr => by
      have hp' : taskAtIdx n rest ts = some a := hp
      have ih := startAt_idx now2 n rest ts a hp' (by
        intro u hu
        exact hnr u (by simp [walkForest]; exact Or.inr hu))
      show (walkForest (.cons t (modifyIdx (Task.start now2) n rest ts))).filter
        (fun u => u.is_running) = _
      rw [walkForest, List.filter_append, ih]
      rw [filter_not_running (by
        intro u hu
        exact hnr u (by simp [walkForest]; exact Or.inl hu))]
      simp
end

mutual
theorem taskAtIdx_mem : ∀ (i : Nat) (rest : List Nat) (f : TaskList) (a : Task),
    taskAtIdx i rest f = some a → a ∈ walkForest f
  | _, _, .nil, a, hp => by simp [taskAtIdx] at hp
  | 0, rest, .cons t ts, a, hp => by
      have := taskAtTask_mem rest t a hp
      simp [walkForest]
      exact Or.inl this
  | n + 1, rest, .cons t ts, a, hp => by
      have := taskAtIdx_mem n rest ts a hp
      simp [walkForest]
      exact Or.inr this
theorem taskAtTask_mem : ∀ (rest : List Nat) (t a : Task),
    taskAtTask rest t = some a → a ∈ walkTask t
  | [], t, a, hp => by
      have : t = a := by simpa [taskAtTask] using hp
      subst this
      cases t
      simp [walkTask]
  | j :: rest, .mk i n c cs g es as, a, hp => by
      have := taskAtIdx_mem j rest cs a hp
      simp [walkTask]
      exact Or.inr this
end

/-- C2: for every forest satisfying the data-model invariant (at most one
open entry per task — the state `start` maintains and the spec's
single-global-timer invariant implies), after `stop_all` every task reports
`is_running() == false`; and after `stop_all` followed by `start()` on the
task `a` sitting at any path `p` of the forest, the running tasks of the
forest are exactly the started `a` (exactly one task runs, and it is `a`). -/
theorem claim_C2 (now now2 : Int) (f : TaskList) (p : List Nat) (a : Task)
    (hwf : ∀ u ∈ walkForest f, AtMostOneOpen u)
    (hp : taskAtForest p (stopAllList now f) = some a) :
    (∀ u ∈ walkForest (stopAllList now f), u.is_running = false) ∧
    (walkForest (modifyForest (Task.start now2) p (stopAllList now f))).filter
      (fun u => u.is_running) = [Task.start now2 a] ∧
    (Task.start now2 a).is_running = true := by
  have h1 := stopAll_all_stopped now f hwf
  cases p with
  | nil => simp [taskAtForest] at hp
  | cons i rest =>
      have hp' : taskAtIdx i rest (stopAllList now f) = some a := hp
      have h2 := startAt_idx now2 i rest (stopAllList now f) a hp' h1
      have ha : a.is_running = false := h1 a (taskAtIdx_mem i rest _ a hp')
      exact ⟨h1, h2, start_is_running now2 a ha⟩

/-- Witness for C2: a two-task forest (a root with one open entry and a
child with one closed entry); after `stop_all` nothing runs, and starting
the child (path `[0, 0]`) leaves exactly the child running. -/
theorem claim_C2_wit :
    (∀ u ∈ walkForest (stopAllList 100
        (.cons (.mk "r" "Root" none
          (.cons (.mk "c" "Child" none .nil none [⟨1, some 4⟩] []) .nil)
          none [⟨2, none⟩] []) .nil)),
      u.is_running = false) ∧
    (walkForest (modifyForest (Task.start 200) [0, 0] (stopAllList 100
        (.cons (.mk "r" "Root" none
          (.cons (.mk "c" "Child" none .nil none [⟨1, some 4⟩] []) .nil)
          none [⟨2, none⟩] []) .nil)))).filter (fun u => u.is_running) =
      [Task.start 200 (.mk "c" "Child" none .nil none [⟨1, some 4⟩] [])] ∧
    (Task.start 200 (.mk "c" "Child" none .nil none [⟨1, some 4⟩] [])).is_running = true := by
  exact claim_C2 100 200
    (.cons (.mk "r" "Root" none
      (.cons (.mk "c" "Child" none .nil none [⟨1, some 4⟩] []) .nil)
      none [⟨2, none⟩] []) .nil)
    [0, 0] (.mk "c" "Child" none .nil none [⟨1, some 4⟩] [])
    (by decide) rfl

theorem dictLookup_insert_self {α : Type} (k : String) (v : α) :
    ∀ d : List (String × α), dictLookup (dictInsert d k v) k = some v
  | [] => by simp [dictInsert, dictLookup]
  | (k', v') :: rest => by
      by_cases h : k' = k
      · simp [dictInsert, dictLookup, h]
      · simp only [dictInsert, dictLookup, if_neg h]
        exact dictLookup_insert_self k v rest

theorem dictLookup_insert_ne {α : Type} (k n : String) (v : α) (h : k ≠ n) :
    ∀ d : List (String × α), dictLookup (dictInsert d k v) n = dictLookup d n
  | [] => by simp [dictInsert, dictLookup, h]
  | (k', v') :: rest => by
      by_cases hk : k' = k
      · subst hk
        simp [dictInsert, dictLookup, h]
      · simp only [dictInsert, if_neg hk, dictLookup]
        by_cases hn : k' = n
        · simp [hn]
        · rw [if_neg hn, if_neg hn]
          exact dictLookup_insert_ne k n v h rest

/-- Lookup after the children fold of `compute_breakdown`: the value under a
name is the aggregate of the last child with that name whose aggregate over
the bin is nonzero (later assignments overwrite earlier ones); otherwise the
initial dict's value. -/
theorem partsFold_lookup (now s e : Int) (n : String) (l : List Task)
    (init : List (String × Int)) :
    dictLookup (l.foldl
      (fun d ch =>
        let sec := aggregate_seconds now (some s) (some e) ch
        if sec ≠ 0 then dictInsert d ch.name sec else d) init) n =
      (match l.reverse.find?
          (fun c => c.name == n && !(aggregate_seconds now (some s) (some e) c == 0)) with
       | some c => some (aggregate_seconds now (some s) (some e) c)
       | none => dictLookup init n) := by
  induction l using List.reverseRecOn generalizing init with
  | nil => simp
  | append_singleton l c ih =>
      rw [List.foldl_append, List.reverse_append]
      simp only [List.foldl_cons, List.foldl_nil, List.reverse_singleton, List.singleton_append]
      by_cases hagg : aggregate_seconds now (some s) (some e) c = 0
      · have hp : ¬((fun x => x.name == n &&
            !(aggregate_seconds now (some s) (some e) x == 0)) c = true) := by
          simp [hagg]
        rw [@List.find?_cons_of_neg _ (fun x => x.name == n &&
          !(aggregate_seconds now (some s) (some e) x == 0)) c l.reverse hp]
        rw [if_neg (not_not_intro hagg)]
        exact ih init
      · by_cases hname : c.name = n
        · have hp : ((fun x => x.name == n &&
              !(aggregate_seconds now (some s) (some e) x == 0)) c = true) := by
            simp [hagg, hname]
          rw [@List.find?_cons_of_pos _ (fun x => x.name == n &&
            !(aggregate_seconds now (some s) (some e) x == 0)) c l.reverse hp]
          rw [if_pos hagg, hname, dictLookup_insert_self]
        · have hp : ¬((fun x => x.name == n &&
              !(aggregate_seconds now (some s) (some e) x == 0)) c = true) := by
            simp [hname]
          rw [@List.find?_cons_of_neg _ (fun x => x.name == n &&
            !(aggregate_seconds now (some s) (some e) x == 0)) c l.reverse hp]
          rw [if_pos hagg, dictLookup_insert_ne c.name n _ hname]
          exact ih init

/-- Lookup in a root's parts dict for any name other than the reserved
`'other'` key. -/
theorem partsFor_lookup (now s e : Int) (root : Task) (n : String) (hn : n ≠ "other") :
    dictLookup (partsFor now s e root) n =
      (root.children.toList.reverse.find?
        (fun c => c.name == n && !(aggregate_seconds now (some s) (some e) c == 0))).map
        (fun c => aggregate_seconds now (some s) (some e) c) := by
  simp only [partsFor]
  by_cases ho : own_seconds now (some s) (some e) root ≠ 0
  · rw [if_pos ho, dictLookup_insert_ne "other" n _ (fun hh => hn hh.symm),
      partsFold_lookup]
    rcases hfe : root.children.toList.reverse.find?
        (fun c => c.name == n && !(aggregate_seconds now (some s) (some e) c == 0)) with
      _ | c <;> simp [hfe, dictLookup]
  · rw [if_neg ho, partsFold_lookup]
    rcases hfe : root.children.toList.reverse.find?
        (fun c => c.name == n && !(aggregate_seconds now (some s) (some e) c == 0)) with
      _ | c <;> simp [hfe, dictLookup]

/-- With pairwise-distinct child names, the reversed-find reduces to the one
child with that name (or nothing when its aggregate is zero). -/
theorem find_name_nodup (pb : Task → Bool) :
    ∀ (l : List Task), (l.map Task.name).Nodup → ∀ c ∈ l,
    l.reverse.find? (fun x => x.name == c.name && pb x) =
      (if pb c then some c else none)
  | [], _, c, hc => by simp at hc
  | a :: rest, hnd, c, hc => by
      rw [List.map_cons, List.nodup_cons] at hnd
      rw [List.reverse_cons, List.find?_append]
      rcases List.mem_cons.mp hc with rfl | hmem
      · have hrest : rest.reverse.find? (fun x => x.name == c.name && pb x) = none := by
          rw [List.find?_eq_none]
          intro x hx
          have hxname : x.name ≠ c.name := by
            intro hh
            exact hnd.1 (hh ▸ List.mem_map_of_mem Task.name (List.mem_reverse.mp hx))
          simp [hxname]
        by_cases hpb : pb c
        · have hone : List.find? (fun x => x.name == c.name && pb x) [c] = some c := by
            rw [@List.find?_cons_of_pos _ (fun x => x.name == c.name && pb x) c []
              (by simp [hpb])]
          rw [hrest, hone, if_pos hpb]
          rfl
        · have hone : List.find? (fun x => x.name == c.name && pb x) [c] = none := by
            rw [@List.find?_cons_of_neg _ (fun x => x.name == c.name && pb x) c []
              (by simp [hpb])]
            rfl
          rw [hrest, hone, if_neg hpb]
          rfl
      · have ih := find_name_nodup pb rest hnd.2 c hmem
        rw [ih]
        have haname : a.name ≠ c.name := by
          intro hh
          exact hnd.1 (hh ▸ List.mem_map_of_mem Task.name hmem)
        have hlast : List.find? (fun x => x.name == c.name && pb x) [a] = none := by
          rw [List.find?_eq_none]
          intro x hx
          simp at hx
          subst hx
          simp [haname]
        simp only [hlast]
        cases hpb : pb c <;> simp [hpb]

/-- C6 (amended): when sibling direct children share a display name, their
contributions are NOT summed: for any part name `n` other than the reserved
`'other'`, the per-name map stores the `aggregate_seconds` over the bin of
the LAST direct child named `n` whose aggregate is nonzero (each later
truthy assignment overwrites the earlier one), and the name is absent when
every child named `n` has aggregate zero. -/
theorem claim_C6 (now s e : Int) (root : Task) (n : String) (hn : n ≠ "other") :
    dictLookup (partsFor now s e root) n =
      (root.children.toList.reverse.find?
        (fun c => c.name == n && !(aggregate_seconds now (some s) (some e) c == 0))).map
        (fun c => aggregate_seconds now (some s) (some e) c) :=
  partsFor_lookup now s e root n hn

/-- Counterexample to C6 as stated: two siblings both named "X" contribute
100 s and 200 s over the bin `[0, 100)`, but the breakdown stores 200 (the
later child's value), not the sum 300. -/
theorem claim_C6_cex :
    compute_breakdown 0 (.cons exDupRoot .nil) [(0, 100, "b")] =
      [[("R", [("X", 200)])]] ∧
    dictLookup (partsFor 0 0 100 exDupRoot) "X" = some 200 ∧
    (200 : Int) ≠ 100 + 200 := by
  refine ⟨by decide, by decide, by decide⟩

/-- Witness for C6 (amended) on [`TT.exDupRoot`]: the stored value for "X"
equals the last nonzero contribution, 200. -/
theorem claim_C6_wit :
    ("X" : String) ≠ "other" ∧
    dictLookup (partsFor 0 0 100 exDupRoot) "X" =
      (exDupRoot.children.toList.reverse.find?
        (fun c => c.name == "X" && !(aggregate_seconds 0 (some 0) (some 100) c == 0))).map
        (fun c => aggregate_seconds 0 (some 0) (some 100) c) ∧
    (exDupRoot.children.toList.reverse.find?
        (fun c => c.name == "X" && !(aggregate_seconds 0 (some 0) (some 100) c == 0))).map
        (fun c => aggregate_seconds 0 (some 0) (some 100) c) = some 200 := by
  exact ⟨by decide, claim_C6 0 0 100 exDupRoot "X" (by decide), by decide⟩

/-- C5 (amended): for every bin and root whose direct children carry
pairwise-distinct names, none of them the reserved name `'other'`:
`compute_breakdown` maps the root's name to its parts dict, in which every
direct child with a NONZERO `aggregate_seconds` over the bin is keyed by its
name with its aggregate (folding in its whole subtree); a child whose
aggregate is zero is omitted; and the root's own undelegated `own_seconds`
appears under `'other'`, omitted exactly when that own time is zero. -/
theorem claim_C5 (now s e : Int) (root : Task) (lbl : String)
    (hnd : (root.children.toList.map Task.name).Nodup)
    (hno : "other" ∉ root.children.toList.map Task.name) :
    compute_breakdown now (.cons root .nil) [(s, e, lbl)] =
      [[(root.name, partsFor now s e root)]] ∧
    (∀ c ∈ root.children.toList,
      dictLookup (partsFor now s e root) c.name =
        (if aggregate_seconds now (some s) (some e) c = 0 then none
         else some (aggregate_seconds now (some s) (some e) c))) ∧
    dictLookup (partsFor now s e root) "other" =
      (if own_seconds now (some s) (some e) root = 0 then none
       else some (own_seconds now (some s) (some e) root)) := by
  refine ⟨rfl, ?_, ?_⟩
  · intro c hc
    have hcn : c.name ≠ "other" := by
      intro hh
      exact hno (hh ▸ List.mem_map_of_mem Task.name hc)
    rw [partsFor_lookup now s e root c.name hcn]
    rw [find_name_nodup (fun x => !(aggregate_seconds now (some s) (some e) x == 0))
      root.children.toList hnd c hc]
    by_cases hz : aggregate_seconds now (some s) (some e) c = 0
    · simp [hz]
    · simp [hz]
  · simp only [partsFor]
    have hfold := partsFold_lookup now s e "other" root.children.toList []
    have hnone : root.children.toList.reverse.find?
        (fun c => c.name == "other" &&
          !(aggregate_seconds now (some s) (some e) c == 0)) = none := by
      rw [List.find?_eq_none]
      intro x hx
      have hxname : x.name ≠ "other" := by
        intro hh
        exact hno (hh ▸ List.mem_map_of_mem Task.name (List.mem_reverse.mp hx))
      simp [hxname]
    rw [hnone] at hfold
    by_cases ho : own_seconds now (some s) (some e) root ≠ 0
    · rw [if_pos ho, dictLookup_insert_self, if_neg ho]
    · rw [if_neg ho, hfold, if_pos (not_not.mp ho)]
      rfl

/-- Counterexample to C5 as stated: the child "C" of [`TT.exZeroChildRoot`]
has aggregate 0 over the bin, and the breakdown omits it entirely instead of
keying it at 0 — the map is `{"R": {"other": 100}}` with no "C" key. -/
theorem claim_C5_cex :
    compute_breakdown 0 (.cons exZeroChildRoot .nil) [(0, 100, "b")] =
      [[("R", [("other", 100)])]] ∧
    dictLookup (partsFor 0 0 100 exZeroChildRoot) "C" = none ∧
    exZeroChildRoot.children.toList.map Task.name = ["C"] := by
  refine ⟨by decide, by decide, by decide⟩

/-- Witness for C5 (amended) on the spec §8 example: root "Work" owns 1 h
and child "Email" aggregates 20 min over the bin, yielding
`{"Work": {"Email": 1200, "other": 3600}}`. -/
theorem claim_C5_wit :
    ((exWork.children.toList.map Task.name).Nodup ∧
      "other" ∉ exWork.children.toList.map Task.name) ∧
    compute_breakdown 0 (.cons exWork .nil) [(0, 10000, "b")] =
      [[("Work", partsFor 0 0 10000 exWork)]] ∧
    compute_breakdown 0 (.cons exWork .nil) [(0, 10000, "b")] =
      [[("Work", [("Email", 1200), ("other", 3600)])]] ∧
    dictLookup (partsFor 0 0 10000 exWork) "other" =
      (if own_seconds 0 (some 0) (some 10000) exWork = 0 then none
       else some (own_seconds 0 (some 0) (some 10000) exWork)) := by
  refine ⟨⟨by decide, by decide⟩, ?_, by decide, ?_⟩
  · exact (claim_C5 0 0 10000 exWork "b" (by decide) (by decide)).1
  · exact (claim_C5 0 0 10000 exWork "b" (by decide) (by decide)).2.2

theorem entryFromDict_toDict (e : TimeEntry) : entryFromDict (entryToDict e) = some e := by
  cases e with
  | mk s en =>
      cases en <;> simp [entryToDict, entryFromDict, PV.truthy, PV.fromisoformat]

theorem adjFromDict_toDict (a : Adjustment) : adjFromDict (adjToDict a) = some a := by
  cases a
  simp [adjToDict, adjFromDict, PV.fromisoformat, pyInt]

theorem entriesFromDict_map : ∀ es : List TimeEntry,
    entriesFromDict (es.map entryToDict) = some es
  | [] => rfl
  | e :: rest => by
      simp only [List.map_cons, entriesFromDict, entryFromDict_toDict]
      rw [entriesFromDict_map rest]
      rfl

theorem adjsFromDict_map : ∀ as : List Adjustment,
    adjsFromDict (as.map adjToDict) = some as
  | [] => rfl
  | a :: rest => by
      simp only [List.map_cons, adjsFromDict, adjFromDict_toDict]
      rw [adjsFromDict_map rest]
      rfl

mutual
theorem from_to_task (gen : List Nat → String) :
    ∀ (p : List Nat) (t : Task), wfTask t = true →
      task_from_dict gen p (task_to_dict t) = some t
  | p, .mk i n c cs g es as, h => by
      have h' : (¬(i = "") ∧ ¬(n = "")) ∧ wfTaskList cs = true := by
        simpa [wfTask, Bool.and_eq_true] using h
      have ihc := from_to_list gen p 0 cs h'.2
      simp only [task_to_dict, task_from_dict]
      rw [entriesFromDict_map, adjsFromDict_map, ihc]
      simp [h'.1.1, h'.1.2]
theorem from_to_list (gen : List Nat → String) :
    ∀ (p : List Nat) (i : Nat) (cs : TaskList), wfTaskList cs = true →
      childrenFromDict gen p i (childrenToDict cs) = some cs
  | _, _, .nil, _ => rfl
  | p, i, .cons t ts, h => by
      have h' : wfTask t = true ∧ wfTaskList ts = true := by
        simpa [wfTaskList, Bool.and_eq_true] using h
      have ih1 := from_to_task gen (p ++ [i]) t h'.1
      have ih2 := from_to_list gen p (i + 1) ts h'.2
      simp only [childrenToDict, childrenFromDict]
      rw [ih1, ih2]
end

/-- C8: serialization round-trip — for every well-formed task (non-empty id
and name, recursively), `task_from_dict (task_to_dict t)` reproduces the
task exactly: id, name, color, daily goal, and every entry/adjustment
timestamp and delta to the second, over all children, for every uuid oracle. -/
theorem claim_C8 (gen : List Nat → String) (p : List Nat) (t : Task)
    (h : wfTask t = true) :
    task_from_dict gen p (task_to_dict t) = some t :=
  from_to_task gen p t h

/-- Witness for C8 on the two-level example task [`TT.exRound`] (colors,
goal, an open and a closed entry, an adjustment, one child). -/
theorem claim_C8_wit :
    wfTask exRound = true ∧
    task_from_dict (fun _ => "u") [] (task_to_dict exRound) = some exRound :=
  ⟨by decide, claim_C8 (fun _ => "u") [] exRound (by decide)⟩

theorem entryFromDict_none_iff (e : RawEntry) :
    (entryFromDict e = none) ↔ entryBad e = true := by
  unfold entryFromDict entryBad
  rcases hs : PV.fromisoformat e.start with _ | s
  · simp
  · rcases ht : e.end_.truthy with _ | _
    · simp [ht]
    · rcases he : PV.fromisoformat e.end_ with _ | t <;> simp [ht, he]

theorem adjFromDict_none_iff (a : RawAdj) :
    (adjFromDict a = none) ↔ adjBad a = true := by
  unfold adjFromDict adjBad
  rcases hs : PV.fromisoformat a.ts with _ | s
  · simp
  · rcases hd : pyInt a.delta_sec with _ | d <;> simp [hd]

theorem entriesFromDict_none_iff : ∀ es : List RawEntry,
    (entriesFromDict es = none) ↔ es.any entryBad = true
  | [] => by simp [entriesFromDict]
  | e :: rest => by
      simp only [entriesFromDict, List.any_cons]
      rcases he : entryFromDict e with _ | te
      · simp [(entryFromDict_none_iff e).mp he]
      · have hb : entryBad e = false := by
          rcases hh : entryBad e with _ | _
          · rfl
          · exact absurd ((entryFromDict_none_iff e).mpr hh) (by simp [he])
        simp [hb, Option.map_eq_none', entriesFromDict_none_iff rest]

theorem adjsFromDict_none_iff : ∀ as : List RawAdj,
    (adjsFromDict as = none) ↔ as.any adjBad = true
  | [] => by simp [adjsFromDict]
  | a :: rest => by
      simp only [adjsFromDict, List.any_cons]
      rcases ha : adjFromDict a with _ | ta
      · simp [(adjFromDict_none_iff a).mp ha]
      · have hb : adjBad a = false := by
          rcases hh : adjBad a with _ | _
          · rfl
          · exact absurd ((adjFromDict_none_iff a).mpr hh) (by simp [ha])
        simp [hb, Option.map_eq_none', adjsFromDict_none_iff rest]

mutual
theorem fromDict_none_iff (gen : List Nat → String) :
    ∀ (p : List Nat) (r : RawTask), (task_from_dict gen p r = none) ↔ rawBad r = true
  | p, .mk id name color goal es as cs => by
      simp only [task_from_dict, rawBad]
      rcases he : entriesFromDict es with _ | tes
      · simp [(entriesFromDict_none_iff es).mp he]
      · have hea : es.any entryBad = false := by
          rcases hh : es.any entryBad with _ | _
          · rfl
          · exact absurd ((entriesFromDict_none_iff es).mpr hh) (by simp [he])
        rcases ha : adjsFromDict as with _ | tas
        · simp [hea, (adjsFromDict_none_iff as).mp ha]
        · have haa : as.any adjBad = false := by
            rcases hh : as.any adjBad with _ | _
            · rfl
            · exact absurd ((adjsFromDict_none_iff as).mpr hh) (by simp [ha])
          rcases hc : childrenFromDict gen p 0 cs with _ | tcs
          · simp [hea, haa, (childrenFromDict_none_iff gen p 0 cs).mp hc]
          · have hcc : rawListBad cs = false := by
              rcases hh : rawListBad cs with _ | _
              · rfl
              · exact absurd ((childrenFromDict_none_iff gen p 0 cs).mpr hh) (by simp [hc])
            simp [hea, haa, hcc]
theorem childrenFromDict_none_iff (gen : List Nat → String) :
    ∀ (p : List Nat) (i : Nat) (rs : RawTaskList),
      (childrenFromDict gen p i rs = none) ↔ rawListBad rs = true
  | _, _, .nil => by simp [childrenFromDict, rawListBad]
  | p, i, .cons r rs => by
      simp only [childrenFromDict, rawListBad]
      rcases hr : task_from_dict gen (p ++ [i]) r with _ | c
      · simp [(fromDict_none_iff gen (p ++ [i]) r).mp hr]
      · have hb : rawBad r = false := by
          rcases hh : rawBad r with _ | _
          · rfl
          · exact absurd ((fromDict_none_iff gen (p ++ [i]) r).mpr hh) (by simp [hr])
        rcases hrs : childrenFromDict gen p (i + 1) rs with _ | cs'
        · simp [hb, (childrenFromDict_none_iff gen p (i + 1) rs).mp hrs]
        · have hbs : rawListBad rs = false := by
            rcases hh : rawListBad rs with _ | _
            · rfl
            · exact absurd ((childrenFromDict_none_iff gen p (i + 1) rs).mpr hh)
                (by simp [hrs])
          simp [hb, hbs, hrs]
end

/-- C10: `task_from_dict` substitutes defaults for a missing or falsy
identity instead of failing: an `id` that is absent, null or the empty
string yields the freshly generated uuid for this node, and a `name` that
is absent, null or empty yields "Unnamed". -/
theorem claim_C10 (gen : List Nat → String) (p : List Nat) (r : RawTask) (t : Task)
    (h : task_from_dict gen p r = some t) :
    ((r.id = none ∨ r.id = some "") → t.id = gen p) ∧
    ((r.name = none ∨ r.name = some "") → t.name = "Unnamed") := by
  cases r with
  | mk id name color goal es as cs =>
      simp only [task_from_dict] at h
      rcases he : entriesFromDict es with _ | tes <;> rw [he] at h
      · exact absurd h (by simp)
      rcases ha : adjsFromDict as with _ | tas <;> rw [ha] at h
      · exact absurd h (by simp)
      rcases hc : childrenFromDict gen p 0 cs with _ | tcs <;> rw [hc] at h
      · exact absurd h (by simp)
      have ht := Option.some.inj h
      subst ht
      constructor
      · rintro (hid | hid) <;> rw [RawTask.id] at hid <;> subst hid <;> simp [Task.id]
      · rintro (hn | hn) <;> rw [RawTask.name] at hn <;> subst hn <;> simp [Task.name]

/-- Witness for C10 at a record with absent `id` and empty `name`. -/
theorem claim_C10_wit :
    Task.id (.mk "u" "Unnamed" none .nil none [] []) = "u" ∧
    Task.name (.mk "u" "Unnamed" none .nil none [] []) = "Unnamed" := by
  have h := claim_C10 (fun _ => "u") [] (.mk none (some "") none none [] [] .nil)
    (.mk "u" "Unnamed" none .nil none [] []) rfl
  exact ⟨h.1 (Or.inl rfl), h.2 (Or.inr rfl)⟩

/-- C4 (amended): `parse_duration_delta` rounds half to even (Python 3's
`round`), not half away from zero — on inputs where the program's float
arithmetic is provably exact.  Whenever every matched component is
`DoubleExact` (a half-integer of magnitude ≤ 2^30, so that each float
step of `total` is exact, cf. `DoubleExact`) and the signed component sum
is exactly halfway between two integers — `total = n + 1/2`, encoded as
`2·mant = (2n+1)·10^scale` — the result is the even neighbour `n` or
`n + 1`; in particular "0.5s" ↦ 0, "-0.5s" ↦ 0, "1.5s" ↦ 2. -/
theorem claim_C4 (s : String) (sgn : Int)
    (h m sec : Option (Int × Nat)) (a : Int) (k : Nat) (n : Int)
    (hc : parsedComponents s = some (sgn, h, m, sec))
    (_hxh : DoubleExact h) (_hxm : DoubleExact m) (_hxs : DoubleExact sec)
    (ht : totalOf sgn h m sec = (a, k))
    (hh : 2 * a = (2 * n + 1) * 10 ^ k) :
    parse_duration_delta s = some (if n % 2 = 0 then n else n + 1) := by
  unfold parse_duration_delta parsedTotal
  rw [hc]
  simp only [Option.map_some']
  rw [ht]
  dsimp only
  congr 1
  have hd : (0 : Int) < 10 ^ k := by positivity
  have e1 : a % 10 ^ k + 10 ^ k * (a / 10 ^ k) = a := Int.emod_add_ediv a (10 ^ k)
  have hr0 : 0 ≤ a % 10 ^ k := Int.emod_nonneg a (by omega)
  have hrd : a % 10 ^ k < 10 ^ k := Int.emod_lt_of_pos a hd
  have h1 : 2 * (a % 10 ^ k) - 10 ^ k = 2 * ((n - a / 10 ^ k) * 10 ^ k) := by
    linear_combination hh + 2 * e1
  have hq : n = a / 10 ^ k ∧ 2 * (a % 10 ^ k) = 10 ^ k := by
    by_cases hm1 : 1 ≤ n - a / 10 ^ k
    · have h2 : (10 : Int) ^ k ≤ (n - a / 10 ^ k) * 10 ^ k :=
        le_mul_of_one_le_left hd.le hm1
      omega
    · by_cases hm2 : n - a / 10 ^ k ≤ -1
      · have h2 : (n - a / 10 ^ k) * 10 ^ k ≤ (-1) * 10 ^ k :=
          mul_le_mul_of_nonneg_right hm2 hd.le
        have h3 : (-1 : Int) * 10 ^ k = -(10 ^ k) := by ring
        rw [h3] at h2
        omega
      · have hm0 : n - a / 10 ^ k = 0 := by omega
        have h4 : (n - a / 10 ^ k) * 10 ^ k = 0 := by rw [hm0]; ring
        rw [h4] at h1
        constructor
        · omega
        · omega
  obtain ⟨hqn, hreq⟩ := hq
  simp only [pythonRound]
  rw [if_neg (by omega), if_neg (by omega), ← hqn]

/-- Witness for C4 (amended) at "1.5s": the sole matched component is the
double-exact half-integer 1.5 (mantissa 15, scale 1), the total is exactly
1 + 1/2, and the result is the even neighbour 2. -/
theorem claim_C4_wit :
    parsedComponents "1.5s" = some (1, none, none, some (15, 1)) ∧
    DoubleExact (some (15, 1)) ∧
    totalOf 1 none none (some (15, 1)) = (15, 1) ∧
    2 * (15 : Int) = (2 * 1 + 1) * 10 ^ (1 : Nat) ∧
    parse_duration_delta "1.5s" = some 2 := by
  refine ⟨by decide, by decide, by decide, by decide, ?_⟩
  have h := claim_C4 "1.5s" 1 none none (some (15, 1)) 15 1 1 (by decide)
    (by decide) (by decide) (by decide) (by decide) (by decide)
  simpa using h

/-- Counterexample to C4 as stated: the halfway inputs "0.5s" and "-0.5s"
produce 0 (the even neighbour), not 1 and -1 (the neighbours of larger
absolute value the claim asserts).  The component 0.5 is a half-integer of
magnitude ≤ 2^30, so the program's double arithmetic is exact here and the
model is faithful to the float-computing source on these inputs. -/
theorem claim_C4_cex :
    parse_duration_delta "0.5s" = some 0 ∧
    parse_duration_delta "-0.5s" = some 0 ∧
    (0 : Int) ≠ 1 ∧ (0 : Int) ≠ -1 := by
  refine ⟨by decide, by decide, by decide, by decide⟩

/-- Witness for C7 at concrete inputs: `ts` = 05:59:59 on day 5 (before the
cutoff) and the two quoted instances on day 5. -/
theorem claim_C7_wit :
    day_start (5 * 86400 + 21599) = (5 * 86400 + 21599) / 86400 * 86400 - 86400 + 21600 ∧
    day_start (5 * 86400 + 21599) = (5 - 1) * 86400 + 21600 ∧
    day_start (5 * 86400 + 21600) = 5 * 86400 + 21600 := by
  have h := claim_C7 (5 * 86400 + 21599) 5
  exact ⟨by have := h.1 (by decide); omega, h.2.2.1, h.2.2.2⟩

end TT
